import Mathlib

/-!
Shallow embedding of the route-finding core of `src/main.py`: the distance
metrics, the graph builder `build_graph_from_excel`, the priority-queue
search `dijkstra`, the itinerary-reconstruction loop of `main`, and the URL
formatter `view_on_map`.

Numbers: Python floats are idealised as exact arithmetic.  Coordinates are
rationals; edge weights live in `ℝ` because Euclidean distances are square
roots.  `dijkstra` and the reconstruction loop are kept polymorphic in the
weight type, exactly as the dynamically typed Python functions are; the
program instantiates them at the (idealised) reals.

The graph (`defaultdict(list)` in the source) is embedded as the flat list
of all `graph[p].append(...)` calls in program order; `adj` recovers
`graph.get(node, [])`, which is the only way the search consumes it.
-/

/-- A 2-D world coordinate `(x, z)`, the graph's node identity
(`coord = (row["X"], row["Z"])` in `build_graph_from_excel`). -/
abbrev Point : Type := ℚ × ℚ

/-- `euclidean_distance(p1, p2) = math.hypot(p1[0]-p2[0], p1[1]-p2[1])`. -/
noncomputable def euclidean_distance (p1 p2 : Point) : ℝ :=
  Real.sqrt (((p1.1 : ℝ) - (p2.1 : ℝ)) ^ 2 + ((p1.2 : ℝ) - (p2.2 : ℝ)) ^ 2)

/-- `manhattan_distance(p1, p2) = abs(p1[0]-p2[0]) + abs(p1[1]-p2[1])`. -/
def manhattan_distance (p1 p2 : Point) : ℚ :=
  |p1.1 - p2.1| + |p1.2 - p2.2|

/-- The three transport-mode tags used by the builder: `"normal"` (rail),
`"ice"` (ice highway), `"walk"`. -/
inductive Mode : Type
  | normal : Mode
  | ice : Mode
  | walk : Mode
deriving DecidableEq

/-- One normalized record of the Excel sheet handed to
`build_graph_from_excel`: columns `Location`, `X`, `Z`, `Owner`, `Type`,
`Path`.  `path` is `none` where pandas reads `NaN`. -/
structure Row : Type where
  location : String
  x : ℚ
  z : ℚ
  owner : String
  type_ : String
  path : Option String
deriving DecidableEq

/-- `(row["X"], row["Z"])`. -/
def Row.coord (r : Row) : Point := (r.x, r.z)

/-- The first-location-scan of `build_graph_from_excel`: keep a row only if
its `Location` has not been seen before (`if location not in name_to_coord`). -/
def firstSeenAux : List String → List Row → List Row
  | _, [] => []
  | seen, r :: rs =>
    if r.location ∈ seen then firstSeenAux seen rs
    else r :: firstSeenAux (r.location :: seen) rs

/-- The rows whose `Location` is seen for the first time, in order; these are
exactly the rows that create entries of `name_to_coord`. -/
def firstSeen (rows : List Row) : List Row := firstSeenAux [] rows

/-- The `name_to_coord` dictionary, as an insertion-ordered association list. -/
def name_to_coord (rows : List Row) : List (String × Point) :=
  (firstSeen rows).map fun r => (r.location, r.coord)

/-- The `owner_lookup` dictionary. -/
def owner_lookup (rows : List Row) : List (String × String) :=
  (firstSeen rows).map fun r => (r.location, r.owner)

/-- `list(name_to_coord.values())`, the node list used for walking edges. -/
def coordsOf (rows : List Row) : List Point :=
  (firstSeen rows).map Row.coord

/-- `leadsWith n h` is true when the char list `n` starts the char list `h`. -/
def leadsWith : List Char → List Char → Bool
  | [], _ => true
  | _ :: _, [] => false
  | a :: as, b :: bs => a == b && leadsWith as bs

/-- `hasSub n h` is true when `n` occurs contiguously inside `h`
(Python's `n in h` on strings). -/
def hasSub (needle : List Char) : List Char → Bool
  | [] => leadsWith needle []
  | c :: rest => leadsWith needle (c :: rest) || hasSub needle rest

/-- `"Ice Highway" in str(row.get("Type", ""))`. -/
def iceTagged (r : Row) : Bool := hasSub "Ice Highway".toList r.type_.toList

/-- The `ice_highways` list: coordinates of the first-seen rows whose type
tag contains `"Ice Highway"`, in scan order. -/
def ice_highways (rows : List Row) : List Point :=
  ((firstSeen rows).filter iceTagged).map Row.coord

/-- First-occurrence deduplication, used for the distinct `Path` keys of
`df.groupby("Path")`.  (pandas iterates groups in sorted-key order and drops
`NaN` keys; no property proved below depends on the iteration order of the
route groups, so first-occurrence order is used.) -/
def firstOccAux : List String → List String → List String
  | _, [] => []
  | seen, x :: xs =>
    if x ∈ seen then firstOccAux seen xs else x :: firstOccAux (x :: seen) xs

/-- The distinct non-null `Path` values of the sheet: the keys of
`df.groupby("Path")`. -/
def pathNames (rows : List Row) : List String :=
  firstOccAux [] (rows.filterMap Row.path)

/-- The rows of one `Path` group, in sheet order. -/
def rowsWithPath (nm : String) (rows : List Row) : List Row :=
  rows.filter fun r => decide (r.path = some nm)

/-- A directed edge `(from, to, travel_time, mode)` as appended by
`graph[from].append((to, travel_time, mode))`. -/
abbrev EdgeT (α : Type) : Type := Point × Point × α × Mode

/-- The graph, as the flat list of all appended edges in program order. -/
abbrev GraphT (α : Type) : Type := List (EdgeT α)

/-- `graph.get(node, [])`: the `(neighbor, weight, mode)` triples appended
for `p`, in order. -/
def adj {α : Type} (g : GraphT α) (p : Point) : List (Point × α × Mode) :=
  (g.filter fun e => decide (e.1 = p)).map fun e => e.2

/-- The two rail edges (or nothing) contributed by one `Path` group:
`if len(group) != 2 or pd.isna(path): continue`, otherwise a bidirectional
`"normal"` edge at Manhattan distance over speed 8. -/
noncomputable def routeEdges (nm : String) (rows : List Row) : GraphT ℝ :=
  match rowsWithPath nm rows with
  | [r1, r2] =>
    [(r1.coord, r2.coord, ((manhattan_distance r1.coord r2.coord : ℚ) : ℝ) / 8, Mode.normal),
     (r2.coord, r1.coord, ((manhattan_distance r1.coord r2.coord : ℚ) : ℝ) / 8, Mode.normal)]
  | _ => []

/-- All rail edges, grouped by route name. -/
noncomputable def fixedEdges (rows : List Row) : GraphT ℝ :=
  (pathNames rows).flatMap fun nm => routeEdges nm rows

/-- The `coord_pair_to_path` dictionary: each valid two-member named group
registers its name under both direction keys. -/
def coord_pair_to_path (rows : List Row) : List ((Point × Point) × String) :=
  (pathNames rows).flatMap fun nm =>
    match rowsWithPath nm rows with
    | [r1, r2] => [((r1.coord, r2.coord), nm), ((r2.coord, r1.coord), nm)]
    | _ => []

/-- The double loop `for i ... for j in range(i+1, ...)` adding a
bidirectional edge for every `i < j` pair of the node list, both directions
carrying the same weight `w l[i] l[j]`. -/
def pairEdges {α : Type} (w : Point → Point → α) (m : Mode) : List Point → GraphT α
  | [] => []
  | p :: rest =>
    (rest.flatMap fun q => [(p, q, w p q, m), (q, p, w p q, m)]) ++ pairEdges w m rest

/-- `build_graph_from_excel` (the graph component of its result): rail edges
from the `Path` groups, then — only when `include_ice_highways` — fast-lane
edges between all pairs of ice-highway coordinates at Euclidean distance
over speed 72, then walking edges between all pairs of known coordinates at
Euclidean distance over speed 3. -/
noncomputable def build_graph_from_excel (rows : List Row)
    (include_ice_highways : Bool) : GraphT ℝ :=
  fixedEdges rows
    ++ (if include_ice_highways then
          pairEdges (fun p q => euclidean_distance p q / 72) Mode.ice (ice_highways rows)
        else [])
    ++ pairEdges (fun p q => euclidean_distance p q / 3) Mode.walk (coordsOf rows)

/-- One element of the heterogeneous trace list built by `dijkstra`: either a
`(node, time_so_far)` hop or a `("mode", mode)` marker. -/
inductive Entry (α : Type) : Type
  | hop : Point → α → Entry α
  | mode : Mode → Entry α
deriving DecidableEq

/-- One queue element `(time_so_far, node, path)` as pushed by `heappush`. -/
abbrev QEntry (α : Type) : Type := α × Point × List (Entry α)

/-- `heapq.heappop`: remove an element of minimal priority.  The Python heap
breaks ties on equal times by comparing the rest of the tuple; tie order is
not semantically significant for any property proved here, so the embedding
removes the earliest queue element of minimal time. -/
def popMin {α : Type} [LinearOrder α] :
    List (QEntry α) → Option (QEntry α × List (QEntry α))
  | [] => none
  | e :: es =>
    match popMin es with
    | none => some (e, [])
    | some (m, rest) => if e.1 ≤ m.1 then some (e, es) else some (m, e :: rest)

theorem popMin_eq_none_iff {α : Type} [LinearOrder α] (l : List (QEntry α)) :
    popMin l = none ↔ l = [] := by
  cases l with
  | nil => simp [popMin]
  | cons e es =>
    simp only [popMin]
    rcases h : popMin es with - | ⟨m, rest⟩
    · simp
    · dsimp only
      split <;> simp

theorem popMin_perm {α : Type} [LinearOrder α] {l : List (QEntry α)}
    {m : QEntry α} {rest : List (QEntry α)} (h : popMin l = some (m, rest)) :
    l.Perm (m :: rest) := by
  induction l generalizing m rest with
  | nil => simp [popMin] at h
  | cons e es ih =>
    rw [popMin] at h
    rcases h' : popMin es with - | ⟨m', rest'⟩ <;> rw [h'] at h
    · rw [popMin_eq_none_iff] at h'
      subst h'
      simp only [Option.some.injEq, Prod.mk.injEq] at h
      rw [← h.1, ← h.2]
    · dsimp only at h
      split at h <;> simp only [Option.some.injEq, Prod.mk.injEq] at h
      · rw [← h.1, ← h.2]
      · rw [← h.1, ← h.2]
        exact ((ih h').cons e).trans (List.Perm.swap m' e rest')

theorem popMin_le {α : Type} [LinearOrder α] {l : List (QEntry α)}
    {m : QEntry α} {rest : List (QEntry α)} (h : popMin l = some (m, rest)) :
    ∀ x ∈ l, m.1 ≤ x.1 := by
  induction l generalizing m rest with
  | nil => simp [popMin] at h
  | cons e es ih =>
    rw [popMin] at h
    rcases h' : popMin es with - | ⟨m', rest'⟩ <;> rw [h'] at h
    · rw [popMin_eq_none_iff] at h'
      subst h'
      simp only [Option.some.injEq, Prod.mk.injEq] at h
      intro x hx
      rw [List.mem_singleton] at hx
      rw [← h.1, hx]
    · dsimp only at h
      intro x hx
      rcases List.mem_cons.mp hx with rfl | hx'
      · split at h <;> simp only [Option.some.injEq, Prod.mk.injEq] at h
        · rw [← h.1]
        · rw [← h.1]
          exact le_of_not_le (by assumption)
      · split at h <;> simp only [Option.some.injEq, Prod.mk.injEq] at h
        · rw [← h.1]
          exact le_trans (by assumption) (ih h' x hx')
        · rw [← h.1]
          exact ih h' x hx'

theorem popMin_length {α : Type} [LinearOrder α] {l : List (QEntry α)}
    {m : QEntry α} {rest : List (QEntry α)} (h : popMin l = some (m, rest)) :
    l.length = rest.length + 1 := by
  simpa using (popMin_perm h).length_eq

/-- The sources of all edges; a node outside this list has no outgoing edges. -/
def keysOf {α : Type} (g : GraphT α) : List Point := g.map fun e => e.1

/-- The number of potential-source nodes not yet finalized. -/
def unseenKeys {α : Type} (g : GraphT α) (seen : List Point) : ℕ :=
  ((keysOf g).filter fun k => decide (k ∉ seen)).length

/-- Termination measure for the search loop. -/
def dgMeasure {α : Type} (g : GraphT α) (queue : List (QEntry α))
    (seen : List Point) : ℕ :=
  unseenKeys g seen * (g.length + 1) + queue.length

theorem filter_length_mono {β : Type} (l : List β) (p q : β → Bool)
    (h : ∀ a ∈ l, p a = true → q a = true) :
    (l.filter p).length ≤ (l.filter q).length := by
  induction l with
  | nil => simp
  | cons b bs ih =>
    have ih' := ih fun a ha => h a (List.mem_cons_of_mem b ha)
    by_cases hb : p b = true
    · rw [List.filter_cons_of_pos hb, List.filter_cons_of_pos (h b (by simp) hb)]
      simpa using ih'
    · rw [List.filter_cons_of_neg (by simpa using hb)]
      cases hq : q b
      · rw [List.filter_cons_of_neg (by simp [hq])]
        exact ih'
      · rw [List.filter_cons_of_pos hq]
        exact le_trans ih' (by simp)

theorem unseenKeys_cons_le {α : Type} (g : GraphT α) (x : Point) (seen : List Point) :
    unseenKeys g (x :: seen) ≤ unseenKeys g seen := by
  refine filter_length_mono _ _ _ fun a _ ha => ?_
  simp only [decide_eq_true_eq, List.mem_cons, not_or] at ha ⊢
  exact ha.2

theorem unseenKeys_cons_lt {α : Type} (g : GraphT α) (x : Point) (seen : List Point)
    (hx : x ∈ keysOf g) (hs : x ∉ seen) :
    unseenKeys g (x :: seen) < unseenKeys g seen := by
  unfold unseenKeys
  generalize keysOf g = l at hx ⊢
  induction l with
  | nil => simp at hx
  | cons y ys ih =>
    by_cases hyx : y = x
    · subst hyx
      rw [List.filter_cons_of_neg (by simp), List.filter_cons_of_pos (by simpa using hs)]
      refine Nat.lt_succ_of_le (filter_length_mono _ _ _ fun a _ ha => ?_)
      simp only [decide_eq_true_eq, List.mem_cons, not_or] at ha ⊢
      exact ha.2
    · have hx' : x ∈ ys := by
        rcases List.mem_cons.mp hx with h | h
        · exact absurd h.symm hyx
        · exact h
      by_cases hy : y ∈ seen
      · rw [List.filter_cons_of_neg (by simp [hy]),
          List.filter_cons_of_neg (by simp [hy])]
        exact ih hx'
      · rw [List.filter_cons_of_pos (by simp [hy, hyx]),
          List.filter_cons_of_pos (by simpa using hy)]
        exact Nat.succ_lt_succ (ih hx')

theorem adj_eq_nil_of_not_mem_keys {α : Type} (g : GraphT α) (p : Point)
    (h : p ∉ keysOf g) : adj g p = [] := by
  unfold adj
  rw [List.filter_eq_nil_iff.mpr, List.map_nil]
  intro e he
  simp only [decide_eq_true_eq]
  intro hep
  exact h (by simpa [keysOf, hep] using List.mem_map_of_mem (fun e => e.1) he)

theorem adj_length_le {α : Type} (g : GraphT α) (p : Point) :
    (adj g p).length ≤ g.length := by
  unfold adj
  rw [List.length_map]
  exact List.length_filter_le _ _

/-- The pushes of one finalization step: `for (neighbor, weight, mode) in
graph.get(node, []): if neighbor not in seen: heappush(queue, (time_so_far +
weight, neighbor, path + [("mode", mode)]))`.  At that point `seen` already
contains `node`, and `path` has already been extended with the current hop. -/
def pushes {α : Type} [Add α] (g : GraphT α) (seen : List Point) (t : α)
    (node : Point) (path' : List (Entry α)) : List (QEntry α) :=
  (adj g node).filterMap fun nb =>
    if nb.1 ∈ node :: seen then none
    else some (t + nb.2.1, nb.1, path' ++ [Entry.mode nb.2.2])

theorem pushes_length_le {α : Type} [Add α] (g : GraphT α) (seen : List Point)
    (t : α) (node : Point) (path' : List (Entry α)) :
    (pushes g seen t node path').length ≤ g.length :=
  le_trans (List.length_filterMap_le _ _) (adj_length_le g node)

theorem pushes_eq_nil_of_not_mem_keys {α : Type} [Add α] (g : GraphT α)
    (seen : List Point) (t : α) (node : Point) (path' : List (Entry α))
    (h : node ∉ keysOf g) : pushes g seen t node path' = [] := by
  rw [pushes, adj_eq_nil_of_not_mem_keys g node h]
  rfl

theorem dgMeasure_skip_lt {α : Type} (g : GraphT α) {queue rest : List (QEntry α)}
    (seen : List Point) (hlen : queue.length = rest.length + 1) :
    dgMeasure g rest seen < dgMeasure g queue seen := by
  unfold dgMeasure
  omega

theorem dgMeasure_step_lt {α : Type} (g : GraphT α) {queue rest pl : List (QEntry α)}
    {seen : List Point} {node : Point}
    (hlen : queue.length = rest.length + 1) (hns : node ∉ seen)
    (hpl : pl.length ≤ g.length) (hnil : node ∉ keysOf g → pl = []) :
    dgMeasure g (rest ++ pl) (node :: seen) < dgMeasure g queue seen := by
  by_cases hk : node ∈ keysOf g
  · have h1 : unseenKeys g (node :: seen) < unseenKeys g seen :=
      unseenKeys_cons_lt g node seen hk hns
    have h2 : unseenKeys g (node :: seen) * (g.length + 1) + (g.length + 1) ≤
        unseenKeys g seen * (g.length + 1) := by
      calc unseenKeys g (node :: seen) * (g.length + 1) + (g.length + 1)
          = (unseenKeys g (node :: seen) + 1) * (g.length + 1) := by ring
        _ ≤ unseenKeys g seen * (g.length + 1) := Nat.mul_le_mul_right _ h1
    unfold dgMeasure
    rw [List.length_append, hlen]
    generalize unseenKeys g (node :: seen) * (g.length + 1) = A at h2 ⊢
    generalize unseenKeys g seen * (g.length + 1) = B at h2 ⊢
    omega
  · have h1 : unseenKeys g (node :: seen) = unseenKeys g seen := by
      unfold unseenKeys
      refine congrArg List.length (List.filter_congr ?_)
      intro k hk'
      have hne : k ≠ node := fun e => hk (e ▸ hk')
      exact decide_eq_decide.mpr (by simp [List.mem_cons, hne])
    rw [hnil hk, List.append_nil]
    unfold dgMeasure
    rw [h1, hlen]
    omega

/-- The body of `dijkstra`'s `while queue:` loop, as a recursion on the
queue/seen state: pop a minimal entry; skip it if its node was already
finalized; otherwise extend its path with the current hop, return it if the
node is the goal, and push the non-finalized neighbors otherwise. -/
def dijkstraGo {α : Type} [LinearOrderedAddCommMonoid α] (g : GraphT α)
    (goal : Point) (queue : List (QEntry α)) (seen : List Point) :
    Option (List (Entry α)) :=
  match hpm : popMin queue with
  | none => none
  | some ((t, node, path), rest) =>
    if hseen : node ∈ seen then dijkstraGo g goal rest seen
    else if node = goal then some (path ++ [Entry.hop node t])
    else
      dijkstraGo g goal
        (rest ++ pushes g seen t node (path ++ [Entry.hop node t])) (node :: seen)
termination_by dgMeasure g queue seen
decreasing_by
  · exact dgMeasure_skip_lt g seen (popMin_length hpm)
  · exact dgMeasure_step_lt g (popMin_length hpm) hseen
      (pushes_length_le g seen t node (path ++ [Entry.hop node t]))
      (pushes_eq_nil_of_not_mem_keys g seen t node (path ++ [Entry.hop node t]))

/-- `dijkstra(graph, start, goal)`: queue seeded with `(0, start, [])`,
empty `seen`. -/
def dijkstra {α : Type} [LinearOrderedAddCommMonoid α] (g : GraphT α)
    (start goal : Point) : Option (List (Entry α)) :=
  dijkstraGo g goal [(0, start, [])] []

theorem dijkstraGo_eq_none {α : Type} [LinearOrderedAddCommMonoid α]
    (g : GraphT α) (goal : Point) {queue : List (QEntry α)} (seen : List Point)
    (h : popMin queue = none) : dijkstraGo g goal queue seen = none := by
  rw [dijkstraGo]
  split
  · rfl
  · simp_all

theorem dijkstraGo_skip {α : Type} [LinearOrderedAddCommMonoid α]
    (g : GraphT α) (goal : Point) {queue rest : List (QEntry α)} {seen : List Point}
    {t : α} {node : Point} {path : List (Entry α)}
    (h : popMin queue = some ((t, node, path), rest)) (hs : node ∈ seen) :
    dijkstraGo g goal queue seen = dijkstraGo g goal rest seen := by
  rw [dijkstraGo]
  split
  · simp_all
  · rename_i t' node' path' rest' heq
    rw [h] at heq
    simp only [Option.some.injEq, Prod.mk.injEq] at heq
    obtain ⟨⟨rfl, rfl, rfl⟩, rfl⟩ := heq
    rw [dif_pos hs]

theorem dijkstraGo_found {α : Type} [LinearOrderedAddCommMonoid α]
    (g : GraphT α) (goal : Point) {queue rest : List (QEntry α)} {seen : List Point}
    {t : α} {node : Point} {path : List (Entry α)}
    (h : popMin queue = some ((t, node, path), rest)) (hs : node ∉ seen)
    (hg : node = goal) :
    dijkstraGo g goal queue seen = some (path ++ [Entry.hop node t]) := by
  rw [dijkstraGo]
  split
  · simp_all
  · rename_i t' node' path' rest' heq
    rw [h] at heq
    simp only [Option.some.injEq, Prod.mk.injEq] at heq
    obtain ⟨⟨rfl, rfl, rfl⟩, rfl⟩ := heq
    rw [dif_neg hs, if_pos hg]

theorem dijkstraGo_step {α : Type} [LinearOrderedAddCommMonoid α]
    (g : GraphT α) (goal : Point) {queue rest : List (QEntry α)} {seen : List Point}
    {t : α} {node : Point} {path : List (Entry α)}
    (h : popMin queue = some ((t, node, path), rest)) (hs : node ∉ seen)
    (hg : node ≠ goal) :
    dijkstraGo g goal queue seen =
      dijkstraGo g goal
        (rest ++ pushes g seen t node (path ++ [Entry.hop node t]))
        (node :: seen) := by
  rw [dijkstraGo]
  split
  · simp_all
  · rename_i t' node' path' rest' heq
    rw [h] at heq
    simp only [Option.some.injEq, Prod.mk.injEq] at heq
    obtain ⟨⟨rfl, rfl, rfl⟩, rfl⟩ := heq
    rw [dif_neg hs, if_neg hg]

/-- The hop points of a trace, in order (the even positions of a well-formed
trace). -/
def hopsOf {α : Type} (tr : List (Entry α)) : List Point :=
  tr.filterMap fun e =>
    match e with
    | Entry.hop p _ => some p
    | Entry.mode _ => none

/-- The cumulative times of a trace's hops, in order. -/
def timesOf {α : Type} (tr : List (Entry α)) : List α :=
  tr.filterMap fun e =>
    match e with
    | Entry.hop _ t => some t
    | Entry.mode _ => none

/-- The alternating shape of a complete trace: hops at even positions, one
mode marker between consecutive hops, beginning and ending with a hop. -/
inductive Alt {α : Type} : List (Entry α) → Prop
  | single (p : Point) (t : α) : Alt [Entry.hop p t]
  | cons (p : Point) (t : α) (m : Mode) {rest : List (Entry α)} :
      Alt rest → Alt (Entry.hop p t :: Entry.mode m :: rest)

theorem Alt.extend {α : Type} {l : List (Entry α)} (h : Alt l) (m : Mode)
    (y : Point) (ty : α) : Alt (l ++ [Entry.mode m, Entry.hop y ty]) := by
  induction h with
  | single p t => exact Alt.cons p t m (Alt.single y ty)
  | cons p t m' h ih => exact Alt.cons p t m' ih

theorem Alt.ne_nil {α : Type} {l : List (Entry α)} (h : Alt l) : l ≠ [] := by
  cases h <;> simp

/-- `CostReach g s v c`: the graph contains an edge walk from `s` to `v` of
total travel time `c`.  "All paths from start to goal" in the specification
are exactly these walks. -/
inductive CostReach {α : Type} [Zero α] [Add α] (g : GraphT α) (s : Point) :
    Point → α → Prop
  | refl : CostReach g s s 0
  | step {v w : Point} {c cw : α} {m : Mode} :
      CostReach g s v c → (v, w, cw, m) ∈ g → CostReach g s w (c + cw)

theorem mem_adj_iff {α : Type} (g : GraphT α) (p q : Point) (w : α) (m : Mode) :
    (q, w, m) ∈ adj g p ↔ (p, q, w, m) ∈ g := by
  unfold adj
  rw [List.mem_map]
  constructor
  · rintro ⟨⟨e1, e2⟩, hef, he2⟩
    obtain ⟨heg, hep⟩ := List.mem_filter.mp hef
    simp only [decide_eq_true_eq] at hep
    dsimp only at he2
    subst hep
    subst he2
    exact heg
  · intro h
    exact ⟨(p, q, w, m), List.mem_filter.mpr ⟨h, by simp⟩, rfl⟩

section DijkstraProof

variable {α : Type} [LinearOrderedAddCommMonoid α]

/-- Optimality invariant on the queue: each finalized node's outgoing edges
to non-finalized nodes are covered by a queue entry whose priority is at
most any walk cost to the source plus the edge weight. -/
def FrontierInv (g : GraphT α) (s : Point) (queue : List (QEntry α))
    (seen : List Point) : Prop :=
  ∀ z ∈ seen, ∀ c : α, CostReach g s z c →
    ∀ y cw m, (z, y, cw, m) ∈ g → y ∉ seen →
      ∃ e ∈ queue, e.2.1 = y ∧ e.1 ≤ c + cw

/-- Until the start node is finalized, the queue holds an entry for it of
non-positive priority (the initial `(0, start, [])`). -/
def StartInv (s : Point) (queue : List (QEntry α)) (seen : List Point) : Prop :=
  s ∉ seen → ∃ e ∈ queue, e.2.1 = s ∧ e.1 ≤ 0

/-- Every queue entry's priority is the cost of an actual walk to its node. -/
def SoundInv (g : GraphT α) (s : Point) (queue : List (QEntry α)) : Prop :=
  ∀ e ∈ queue, CostReach g s e.2.1 e.1

/-- Any walk to a non-finalized node is covered by some queue entry of
priority at most its cost. -/
theorem queue_cover {g : GraphT α} {s : Point} {queue : List (QEntry α)}
    {seen : List Point} (hw : ∀ e ∈ g, 0 ≤ e.2.2.1)
    (h3 : FrontierInv g s queue seen) (h4 : StartInv s queue seen) :
    ∀ w (c : α), CostReach g s w c → w ∉ seen → ∃ e ∈ queue, e.1 ≤ c := by
  intro w c hreach
  induction hreach with
  | refl =>
    intro hws
    obtain ⟨e, he, -, hle⟩ := h4 hws
    exact ⟨e, he, hle⟩
  | @step v w' c₁ cw m hr hmem ih =>
    intro hws
    have hcw : (0 : α) ≤ cw := hw (v, w', cw, m) hmem
    by_cases hv : v ∈ seen
    · obtain ⟨e, he, -, hle⟩ := h3 v hv c₁ hr w' cw m hmem hws
      exact ⟨e, he, hle⟩
    · obtain ⟨e, he, hle⟩ := ih hv
      exact ⟨e, he, le_trans hle (le_add_of_nonneg_right hcw)⟩

theorem FrontierInv_skip {g : GraphT α} {s : Point} {queue rest : List (QEntry α)}
    {seen : List Point} {t : α} {node : Point} {path : List (Entry α)}
    (hpm : popMin queue = some ((t, node, path), rest)) (hs : node ∈ seen)
    (h3 : FrontierInv g s queue seen) : FrontierInv g s rest seen := by
  intro z hz c hc y cw m hmem hy
  obtain ⟨e, he, hey, hle⟩ := h3 z hz c hc y cw m hmem hy
  rcases List.mem_cons.mp ((popMin_perm hpm).mem_iff.mp he) with rfl | hr
  · exact absurd (hey ▸ hs) hy
  · exact ⟨e, hr, hey, hle⟩

theorem StartInv_skip {queue rest : List (QEntry α)} {seen : List Point}
    {t : α} {node : Point} {path : List (Entry α)} {s : Point}
    (hpm : popMin queue = some ((t, node, path), rest)) (hs : node ∈ seen)
    (h4 : StartInv s queue seen) : StartInv s rest seen := by
  intro hsn
  obtain ⟨e, he, hes, hle⟩ := h4 hsn
  rcases List.mem_cons.mp ((popMin_perm hpm).mem_iff.mp he) with rfl | hr
  · exact absurd (hes ▸ hs) hsn
  · exact ⟨e, hr, hes, hle⟩

theorem SoundInv_sub {g : GraphT α} {s : Point} {queue rest : List (QEntry α)}
    {me : QEntry α} (hpm : popMin queue = some (me, rest))
    (hsound : SoundInv g s queue) : SoundInv g s rest :=
  fun e he => hsound e ((popMin_perm hpm).mem_iff.mpr (List.mem_cons_of_mem _ he))

theorem mem_pushes {α' : Type} [Add α'] {g : GraphT α'} {seen : List Point}
    {t : α'} {node y : Point} {cw : α'} {m : Mode} {path' : List (Entry α')}
    (hmem : (node, y, cw, m) ∈ g) (hy : y ∉ node :: seen) :
    (t + cw, y, path' ++ [Entry.mode m]) ∈ pushes g seen t node path' := by
  rw [pushes]
  exact List.mem_filterMap.mpr
    ⟨(y, cw, m), (mem_adj_iff g node y cw m).mpr hmem, by rw [if_neg hy]⟩

theorem mem_of_mem_pushes {α' : Type} [Add α'] {g : GraphT α'} {seen : List Point}
    {t : α'} {node : Point} {path' : List (Entry α')} {e : QEntry α'}
    (he : e ∈ pushes g seen t node path') :
    ∃ y cw m, (node, y, cw, m) ∈ g ∧ y ∉ node :: seen ∧
      e = (t + cw, y, path' ++ [Entry.mode m]) := by
  rw [pushes] at he
  obtain ⟨⟨y, cw, m⟩, hadj, hsome⟩ := List.mem_filterMap.mp he
  by_cases hys : y ∈ node :: seen
  · rw [if_pos hys] at hsome
    cases hsome
  · rw [if_neg hys] at hsome
    cases hsome
    exact ⟨y, cw, m, (mem_adj_iff g node y cw m).mp hadj, hys, rfl⟩

theorem SoundInv_step {g : GraphT α} {s : Point} {queue rest : List (QEntry α)}
    {seen : List Point} {t : α} {node : Point} {path : List (Entry α)}
    (hpm : popMin queue = some ((t, node, path), rest))
    (hsound : SoundInv g s queue) (path' : List (Entry α)) :
    SoundInv g s (rest ++ pushes g seen t node path') := by
  intro e he
  rcases List.mem_append.mp he with hr | hp
  · exact hsound e ((popMin_perm hpm).mem_iff.mpr (List.mem_cons_of_mem _ hr))
  · obtain ⟨y, cw, m, hmem, -, rfl⟩ := mem_of_mem_pushes hp
    exact CostReach.step
      (hsound _ ((popMin_perm hpm).mem_iff.mpr (List.mem_cons_self _ _))) hmem

theorem StartInv_step {g : GraphT α} {queue rest : List (QEntry α)}
    {seen : List Point} {t : α} {node : Point} {path : List (Entry α)} {s : Point}
    (hpm : popMin queue = some ((t, node, path), rest))
    (h4 : StartInv s queue seen) (path' : List (Entry α)) :
    StartInv s (rest ++ pushes g seen t node path') (node :: seen) := by
  intro hsn
  have hss : s ∉ seen := fun h => hsn (List.mem_cons_of_mem _ h)
  obtain ⟨e, he, hes, hle⟩ := h4 hss
  rcases List.mem_cons.mp ((popMin_perm hpm).mem_iff.mp he) with rfl | hr
  · exact absurd (hes ▸ hsn) (fun hc => hc (List.mem_cons_self _ _))
  · exact ⟨e, List.mem_append_left _ hr, hes, hle⟩

theorem FrontierInv_step {g : GraphT α} {s : Point} {queue rest : List (QEntry α)}
    {seen : List Point} {t : α} {node : Point} {path : List (Entry α)}
    (hw : ∀ e ∈ g, 0 ≤ e.2.2.1)
    (hpm : popMin queue = some ((t, node, path), rest)) (hs : node ∉ seen)
    (h3 : FrontierInv g s queue seen) (h4 : StartInv s queue seen)
    (path' : List (Entry α)) :
    FrontierInv g s (rest ++ pushes g seen t node path') (node :: seen) := by
  intro z hz c hc y cw m hmem hy
  have hyn : y ≠ node := fun e => hy (e ▸ List.mem_cons_self node seen)
  have hys : y ∉ seen := fun h => hy (List.mem_cons_of_mem _ h)
  rcases List.mem_cons.mp hz with rfl | hzs
  · refine ⟨(t + cw, y, path' ++ [Entry.mode m]),
      List.mem_append_right _ (mem_pushes hmem hy), rfl, ?_⟩
    have ht : t ≤ c := by
      obtain ⟨e, he, hle⟩ := queue_cover hw h3 h4 z c hc hs
      exact le_trans (popMin_le hpm e he) hle
    exact add_le_add_right ht cw
  · obtain ⟨e, he, hey, hle⟩ := h3 z hzs c hc y cw m hmem hys
    rcases List.mem_cons.mp ((popMin_perm hpm).mem_iff.mp he) with rfl | hr
    · exact absurd hey.symm hyn
    · exact ⟨e, List.mem_append_left _ hr, hey, hle⟩

end DijkstraProof

/-- Master lemma: from any state satisfying the invariants, if the goal is
not finalized and is reachable, the loop returns a trace ending in a goal
hop whose cumulative time is attained by a walk and is a lower bound of all
walk costs from start to goal. -/
theorem dijkstraGo_optimal {α : Type} [LinearOrderedAddCommMonoid α]
    {g : GraphT α} {s goal : Point} (hw : ∀ e ∈ g, 0 ≤ e.2.2.1) :
    ∀ N queue seen, dgMeasure g queue seen = N →
      SoundInv g s queue → FrontierInv g s queue seen → StartInv s queue seen →
      goal ∉ seen → ∀ c : α, CostReach g s goal c →
      ∃ tr T, dijkstraGo g goal queue seen = some tr ∧
        tr.getLast? = some (Entry.hop goal T) ∧
        CostReach g s goal T ∧ ∀ c' : α, CostReach g s goal c' → T ≤ c' := by
  intro N
  induction N using Nat.strong_induction_on with
  | _ N ih =>
    intro queue seen hN hsound h3 h4 hgoal c hc
    rcases hpm : popMin queue with - | ⟨⟨t, node, path⟩, rest⟩
    · exfalso
      rw [popMin_eq_none_iff] at hpm
      obtain ⟨e, he, -⟩ := queue_cover hw h3 h4 goal c hc hgoal
      rw [hpm] at he
      exact List.not_mem_nil e he
    · by_cases hs : node ∈ seen
      · rw [dijkstraGo_skip g goal hpm hs]
        exact ih (dgMeasure g rest seen)
          (hN ▸ dgMeasure_skip_lt g seen (popMin_length hpm)) rest seen rfl
          (SoundInv_sub hpm hsound) (FrontierInv_skip hpm hs h3)
          (StartInv_skip hpm hs h4) hgoal c hc
      · by_cases hg : node = goal
        · subst hg
          rw [dijkstraGo_found g node hpm hs rfl]
          refine ⟨path ++ [Entry.hop node t], t, rfl, List.getLast?_concat _, ?_, ?_⟩
          · exact hsound _ ((popMin_perm hpm).mem_iff.mpr (List.mem_cons_self _ _))
          · intro c' hc'
            obtain ⟨e, he, hle⟩ := queue_cover hw h3 h4 node c' hc' hs
            exact le_trans (popMin_le hpm e he) hle
        · rw [dijkstraGo_step g goal hpm hs hg]
          have hgoal' : goal ∉ node :: seen := by
            intro h
            rcases List.mem_cons.mp h with h' | h'
            · exact hg h'.symm
            · exact hgoal h'
          exact ih _
            (hN ▸ dgMeasure_step_lt g (popMin_length hpm) hs
              (pushes_length_le g seen t node (path ++ [Entry.hop node t]))
              (pushes_eq_nil_of_not_mem_keys g seen t node
                (path ++ [Entry.hop node t]))) _ _ rfl
            (SoundInv_step hpm hsound _) (FrontierInv_step hw hpm hs h3 h4 _)
            (StartInv_step hpm h4 _) hgoal' c hc

theorem hopsOf_append {α : Type} (l l' : List (Entry α)) :
    hopsOf (l ++ l') = hopsOf l ++ hopsOf l' :=
  List.filterMap_append l l' _

theorem timesOf_append {α : Type} (l l' : List (Entry α)) :
    timesOf (l ++ l') = timesOf l ++ timesOf l' :=
  List.filterMap_append l l' _

theorem head?_append_left {β : Type} {l l' : List β} {a : β}
    (h : l.head? = some a) : (l ++ l').head? = some a := by
  cases l with
  | nil => cases h
  | cons x xs => simpa using h

/-- Shape invariant for one queue entry `(t, v, path)`: `path ++ [hop v t]`
is a well-formed trace starting with `(start, 0)`, the hops already recorded
in `path` are finalized nodes, the entry's own node is not among them, and —
for non-negative weights — the recorded times are non-decreasing. -/
structure EntryShapeInv {α : Type} [LinearOrderedAddCommMonoid α] (g : GraphT α)
    (s : Point) (seen : List Point) (e : QEntry α) : Prop where
  alt : Alt (e.2.2 ++ [Entry.hop e.2.1 e.1])
  headOK : (e.2.2 ++ [Entry.hop e.2.1 e.1]).head? = some (Entry.hop s 0)
  hopsSeen : ∀ p ∈ hopsOf e.2.2, p ∈ seen
  selfNew : e.2.1 ∉ hopsOf e.2.2
  chainOK : (∀ ed ∈ g, 0 ≤ ed.2.2.1) →
    List.Chain' (· ≤ ·) (timesOf (e.2.2 ++ [Entry.hop e.2.1 e.1]))

theorem EntryShapeInv.mono {α : Type} [LinearOrderedAddCommMonoid α]
    {g : GraphT α} {s : Point} {seen seen' : List Point} {e : QEntry α}
    (h : EntryShapeInv g s seen e) (hsub : ∀ p ∈ seen, p ∈ seen') :
    EntryShapeInv g s seen' e :=
  ⟨h.alt, h.headOK, fun p hp => hsub p (h.hopsSeen p hp), h.selfNew, h.chainOK⟩

theorem EntryShapeInv_push {α : Type} [LinearOrderedAddCommMonoid α]
    {g : GraphT α} {s : Point} {seen : List Point} {t : α} {node : Point}
    {path : List (Entry α)}
    (hpopped : EntryShapeInv g s seen (t, node, path)) (hs : node ∉ seen)
    {e : QEntry α} (he : e ∈ pushes g seen t node (path ++ [Entry.hop node t])) :
    EntryShapeInv g s (node :: seen) e := by
  obtain ⟨y, cw, m, hmem, hy, rfl⟩ := mem_of_mem_pushes he
  have hyn : y ≠ node := fun h => hy (h ▸ List.mem_cons_self _ _)
  have hys : y ∉ seen := fun h => hy (List.mem_cons_of_mem _ h)
  have halt := hpopped.alt
  have hhead := hpopped.headOK
  have hhops := hpopped.hopsSeen
  have hself := hpopped.selfNew
  dsimp only at halt hhead hhops hself ⊢
  refine ⟨?_, ?_, ?_, ?_, ?_⟩
  · simpa [List.append_assoc] using halt.extend m y (t + cw)
  · exact head?_append_left (head?_append_left hhead)
  · intro p hp
    rw [hopsOf_append, hopsOf_append] at hp
    simp only [hopsOf, List.filterMap, List.mem_append] at hp
    rcases hp with (hp | hp) | hp
    · exact List.mem_cons_of_mem _ (hhops p hp)
    · simp only [List.mem_singleton] at hp
      exact hp ▸ List.mem_cons_self _ _
    · simp at hp
  · intro hcontra
    rw [hopsOf_append, hopsOf_append] at hcontra
    simp only [hopsOf, List.filterMap, List.mem_append] at hcontra
    rcases hcontra with (hp | hp) | hp
    · exact hys (hhops y hp)
    · simp only [List.mem_singleton] at hp
      exact hyn hp
    · simp at hp
  · intro hwg
    have hchain := hpopped.chainOK hwg
    dsimp only at hchain
    have hcw : (0 : α) ≤ cw := hwg (node, y, cw, m) hmem
    have heq : timesOf ((path ++ [Entry.hop node t] ++ [Entry.mode m]) ++
        [Entry.hop y (t + cw)]) = timesOf (path ++ [Entry.hop node t]) ++ [t + cw] := by
      simp [timesOf_append, timesOf]
    rw [heq, List.chain'_append]
    refine ⟨hchain, List.chain'_singleton _, ?_⟩
    intro a ha b hb
    have hlast : (timesOf (path ++ [Entry.hop node t])).getLast? = some t := by
      rw [timesOf_append]
      have : timesOf [Entry.hop node t] = [t] := rfl
      rw [this]
      exact List.getLast?_concat _
    rw [hlast] at ha
    simp only [Option.mem_def, Option.some.injEq, List.head?_cons] at ha hb
    rw [← ha, ← hb]
    exact le_add_of_nonneg_right hcw

/-- Master lemma: any trace the loop returns is a well-formed alternating
trace from `(start, 0)` to a final goal hop, the goal appears exactly once
among its hops, and for non-negative weights its times are non-decreasing. -/
theorem dijkstraGo_shape {α : Type} [LinearOrderedAddCommMonoid α]
    {g : GraphT α} {s goal : Point} :
    ∀ N queue seen, dgMeasure g queue seen = N →
      (∀ e ∈ queue, EntryShapeInv g s seen e) → goal ∉ seen →
      ∀ tr, dijkstraGo g goal queue seen = some tr →
        ∃ T, Alt tr ∧ tr.head? = some (Entry.hop s 0) ∧
          tr.getLast? = some (Entry.hop goal T) ∧
          List.count goal (hopsOf tr) = 1 ∧
          ((∀ ed ∈ g, 0 ≤ ed.2.2.1) → List.Chain' (· ≤ ·) (timesOf tr)) := by
  intro N
  induction N using Nat.strong_induction_on with
  | _ N ih =>
    intro queue seen hN hinv hgoal tr htr
    rcases hpm : popMin queue with - | ⟨⟨t, node, path⟩, rest⟩
    · rw [dijkstraGo_eq_none g goal seen hpm] at htr
      cases htr
    · by_cases hs : node ∈ seen
      · rw [dijkstraGo_skip g goal hpm hs] at htr
        refine ih _ (hN ▸ dgMeasure_skip_lt g seen (popMin_length hpm))
          rest seen rfl ?_ hgoal tr htr
        intro e he
        exact hinv e ((popMin_perm hpm).mem_iff.mpr (List.mem_cons_of_mem _ he))
      · have hpopped := hinv _ ((popMin_perm hpm).mem_iff.mpr (List.mem_cons_self _ _))
        by_cases hg : node = goal
        · subst hg
          rw [dijkstraGo_found g node hpm hs rfl] at htr
          cases htr
          have h0 : node ∉ hopsOf path := fun h => hs (hpopped.hopsSeen node h)
          refine ⟨t, hpopped.alt, hpopped.headOK, List.getLast?_concat _, ?_,
            hpopped.chainOK⟩
          rw [hopsOf_append, List.count_append, List.count_eq_zero.mpr h0]
          simp [hopsOf]
        · rw [dijkstraGo_step g goal hpm hs hg] at htr
          have hgoal' : goal ∉ node :: seen := by
            intro h
            rcases List.mem_cons.mp h with h' | h'
            · exact hg h'.symm
            · exact hgoal h'
          refine ih _
            (hN ▸ dgMeasure_step_lt g (popMin_length hpm) hs
              (pushes_length_le g seen t node (path ++ [Entry.hop node t]))
              (pushes_eq_nil_of_not_mem_keys g seen t node
                (path ++ [Entry.hop node t]))) _ _ rfl ?_ hgoal' tr htr
          intro e he
          rcases List.mem_append.mp he with hr | hp
          · exact (hinv e ((popMin_perm hpm).mem_iff.mpr
              (List.mem_cons_of_mem _ hr))).mono fun p hp => List.mem_cons_of_mem _ hp
          · exact EntryShapeInv_push hpopped hs hp

/-- `dijkstra` on a non-negative-weight graph returns an optimal trace for
any reachable goal. -/
theorem dijkstra_optimal_general {α : Type} [LinearOrderedAddCommMonoid α]
    {g : GraphT α} {s goal : Point} (hw : ∀ e ∈ g, 0 ≤ e.2.2.1)
    {c : α} (hc : CostReach g s goal c) :
    ∃ tr T, dijkstra g s goal = some tr ∧
      tr.getLast? = some (Entry.hop goal T) ∧
      CostReach g s goal T ∧ ∀ c' : α, CostReach g s goal c' → T ≤ c' := by
  refine dijkstraGo_optimal hw (dgMeasure g [(0, s, [])] []) _ _ rfl ?_ ?_ ?_
    (by simp) c hc
  · intro e he
    rw [List.mem_singleton] at he
    subst he
    exact CostReach.refl
  · intro z hz
    cases hz
  · intro hsn
    exact ⟨(0, s, []), List.mem_singleton.mpr rfl, rfl, le_refl 0⟩

/-- Any trace `dijkstra` returns is alternating, starts at `(start, 0)`,
ends at a goal hop, visits the goal exactly once, and (for non-negative
weights) has non-decreasing times. -/
theorem dijkstra_shape_general {α : Type} [LinearOrderedAddCommMonoid α]
    {g : GraphT α} {s goal : Point} {tr : List (Entry α)}
    (htr : dijkstra g s goal = some tr) :
    ∃ T, Alt tr ∧ tr.head? = some (Entry.hop s 0) ∧
      tr.getLast? = some (Entry.hop goal T) ∧
      List.count goal (hopsOf tr) = 1 ∧
      ((∀ ed ∈ g, 0 ≤ ed.2.2.1) → List.Chain' (· ≤ ·) (timesOf tr)) := by
  refine dijkstraGo_shape (dgMeasure g [(0, s, [])] []) _ _ rfl ?_ (by simp) tr htr
  intro e he
  rw [List.mem_singleton] at he
  subst he
  refine ⟨Alt.single s 0, rfl, ?_, ?_, fun _ => List.chain'_singleton _⟩
  · intro p hp
    exact absurd hp (List.not_mem_nil p)
  · intro hp
    exact absurd hp (List.not_mem_nil s)

theorem Alt.length_odd {α : Type} {l : List (Entry α)} (h : Alt l) :
    l.length % 2 = 1 := by
  induction h with
  | single p t => rfl
  | cons p t m h ih =>
    simp only [List.length_cons]
    omega

theorem Alt.get_even {α : Type} {l : List (Entry α)} (h : Alt l) :
    ∀ i, i < l.length → i % 2 = 0 → ∃ p t, l.get? i = some (Entry.hop p t) := by
  induction h with
  | single p t =>
    intro i hi hpar
    match i with
    | 0 => exact ⟨p, t, rfl⟩
    | (j + 1) =>
      rw [List.length_singleton] at hi
      omega
  | cons p t m h ih =>
    intro i hi hpar
    match i with
    | 0 => exact ⟨p, t, rfl⟩
    | 1 => exact absurd hpar (by decide)
    | (j + 2) =>
      simp only [List.length_cons] at hi
      exact ih j (by omega) (by omega)

theorem Alt.get_odd {α : Type} {l : List (Entry α)} (h : Alt l) :
    ∀ i, i < l.length → i % 2 = 1 → ∃ m, l.get? i = some (Entry.mode m) := by
  induction h with
  | single p t =>
    intro i hi hpar
    match i with
    | 0 => exact absurd hpar (by decide)
    | (j + 1) =>
      rw [List.length_singleton] at hi
      omega
  | cons p t m h ih =>
    intro i hi hpar
    match i with
    | 0 => exact absurd hpar (by decide)
    | 1 => exact ⟨m, rfl⟩
    | (j + 2) =>
      simp only [List.length_cons] at hi
      exact ih j (by omega) (by omega)

/-- The graph is symmetric: every append of an edge is paired with its
reverse at the same weight. -/
def SymmGraph {α : Type} (g : GraphT α) : Prop :=
  ∀ u v w m, (u, v, w, m) ∈ g → (v, u, w, m) ∈ g

theorem CostReach.trans {α : Type} [AddCommMonoid α] {g : GraphT α}
    {s v w : Point} {c₁ c₂ : α} (h₁ : CostReach g s v c₁)
    (h₂ : CostReach g v w c₂) : CostReach g s w (c₁ + c₂) := by
  induction h₂ with
  | refl => simpa using h₁
  | step hr hmem ih =>
    rw [← add_assoc]
    exact CostReach.step ih hmem

theorem CostReach.single {α : Type} [AddCommMonoid α] {g : GraphT α}
    {v w : Point} {cw : α} {m : Mode} (hmem : (v, w, cw, m) ∈ g) :
    CostReach g v w cw := by
  simpa using CostReach.step (CostReach.refl (g := g) (s := v)) hmem

theorem CostReach.rev {α : Type} [AddCommMonoid α] {g : GraphT α}
    (hsym : SymmGraph g) {u v : Point} {c : α} (h : CostReach g u v c) :
    CostReach g v u c := by
  induction h with
  | refl => exact CostReach.refl
  | @step v' w c₁ cw m hr hmem ih =>
    rw [add_comm]
    exact (CostReach.single (hsym _ _ _ _ hmem)).trans ih

theorem mem_pairEdges_iff {α : Type} (w : Point → Point → α) (m : Mode)
    (l : List Point) (e : EdgeT α) :
    e ∈ pairEdges w m l ↔
      ∃ p q, [p, q].Sublist l ∧
        (e = (p, q, w p q, m) ∨ e = (q, p, w p q, m)) := by
  induction l with
  | nil =>
    simp only [pairEdges, List.not_mem_nil, false_iff]
    rintro ⟨p, q, hsub, -⟩
    cases hsub
  | cons x xs ih =>
    rw [pairEdges, List.mem_append]
    constructor
    · rintro (hl | hr)
      · obtain ⟨q, hq, he⟩ := List.mem_flatMap.mp hl
        rcases List.mem_cons.mp he with rfl | he'
        · exact ⟨x, q, List.Sublist.cons₂ x (List.singleton_sublist.mpr hq), Or.inl rfl⟩
        · rw [List.mem_singleton] at he'
          exact ⟨x, q, List.Sublist.cons₂ x (List.singleton_sublist.mpr hq),
            Or.inr he'⟩
      · obtain ⟨p, q, hsub, he⟩ := ih.mp hr
        exact ⟨p, q, hsub.cons x, he⟩
    · rintro ⟨p, q, hsub, he⟩
      cases hsub with
      | cons _ hsub' =>
        exact Or.inr (ih.mpr ⟨p, q, hsub', he⟩)
      | cons₂ _ hsub' =>
        refine Or.inl (List.mem_flatMap.mpr ⟨q, List.singleton_sublist.mp hsub', ?_⟩)
        rcases he with rfl | rfl
        · exact List.mem_cons_self _ _
        · exact List.mem_cons_of_mem _ (List.mem_singleton.mpr rfl)

theorem pairEdges_mode {α : Type} {w : Point → Point → α} {m : Mode}
    {l : List Point} {e : EdgeT α} (he : e ∈ pairEdges w m l) : e.2.2.2 = m := by
  obtain ⟨p, q, -, hcase⟩ := (mem_pairEdges_iff w m l e).mp he
  rcases hcase with rfl | rfl <;> rfl

theorem pairEdges_symm {α : Type} (w : Point → Point → α) (m : Mode)
    (l : List Point) {u v : Point} {cw : α} {m' : Mode}
    (he : (u, v, cw, m') ∈ pairEdges w m l) : (v, u, cw, m') ∈ pairEdges w m l := by
  obtain ⟨p, q, hsub, hcase⟩ := (mem_pairEdges_iff w m l _).mp he
  refine (mem_pairEdges_iff w m l _).mpr ⟨p, q, hsub, ?_⟩
  rcases hcase with h | h <;>
    simp only [Prod.mk.injEq] at h <;>
    obtain ⟨rfl, rfl, rfl, rfl⟩ := h
  · exact Or.inr rfl
  · exact Or.inl rfl

theorem sublist_pair_of_mem {β : Type} {l : List β} {a b : β}
    (ha : a ∈ l) (hb : b ∈ l) (hne : a ≠ b) :
    [a, b].Sublist l ∨ [b, a].Sublist l := by
  induction l with
  | nil => cases ha
  | cons x xs ih =>
    rcases List.mem_cons.mp ha with rfl | ha'
    · have hb' : b ∈ xs := by
        rcases List.mem_cons.mp hb with h | h
        · exact absurd h.symm hne
        · exact h
      exact Or.inl (List.Sublist.cons₂ a (List.singleton_sublist.mpr hb'))
    · rcases List.mem_cons.mp hb with rfl | hb'
      · exact Or.inr (List.Sublist.cons₂ b (List.singleton_sublist.mpr ha'))
      · rcases ih ha' hb' with h | h
        · exact Or.inl (h.cons x)
        · exact Or.inr (h.cons x)

theorem euclidean_distance_comm (p q : Point) :
    euclidean_distance p q = euclidean_distance q p := by
  unfold euclidean_distance
  ring_nf

theorem euclidean_distance_nonneg (p q : Point) : 0 ≤ euclidean_distance p q :=
  Real.sqrt_nonneg _

theorem euclidean_distance_pos {p q : Point} (h : p ≠ q) :
    0 < euclidean_distance p q := by
  rw [euclidean_distance, Real.sqrt_pos]
  have : p.1 ≠ q.1 ∨ p.2 ≠ q.2 := by
    by_contra hc
    push_neg at hc
    exact h (Prod.ext hc.1 hc.2)
  rcases this with h1 | h2
  · have : ((p.1 : ℝ)) - (q.1 : ℝ) ≠ 0 := by
      intro hz
      exact h1 (by exact_mod_cast sub_eq_zero.mp hz)
    exact add_pos_of_pos_of_nonneg (pow_two_pos_of_ne_zero this) (sq_nonneg _)
  · have : ((p.2 : ℝ)) - (q.2 : ℝ) ≠ 0 := by
      intro hz
      exact h2 (by exact_mod_cast sub_eq_zero.mp hz)
    exact add_pos_of_nonneg_of_pos (sq_nonneg _) (pow_two_pos_of_ne_zero this)

theorem euclidean_distance_self (p : Point) : euclidean_distance p p = 0 := by
  rw [euclidean_distance]
  simp

theorem manhattan_distance_nonneg (p q : Point) : 0 ≤ manhattan_distance p q :=
  add_nonneg (abs_nonneg _) (abs_nonneg _)

theorem manhattan_distance_pos {p q : Point} (h : p ≠ q) :
    0 < manhattan_distance p q := by
  rw [manhattan_distance]
  have : p.1 ≠ q.1 ∨ p.2 ≠ q.2 := by
    by_contra hc
    push_neg at hc
    exact h (Prod.ext hc.1 hc.2)
  rcases this with h1 | h2
  · exact add_pos_of_pos_of_nonneg (abs_pos.mpr (sub_ne_zero.mpr h1)) (abs_nonneg _)
  · exact add_pos_of_nonneg_of_pos (abs_nonneg _) (abs_pos.mpr (sub_ne_zero.mpr h2))

theorem routeEdges_eq_of {nm : String} {rows : List Row} {r1 r2 : Row}
    (heq : rowsWithPath nm rows = [r1, r2]) :
    routeEdges nm rows =
      [(r1.coord, r2.coord,
          ((manhattan_distance r1.coord r2.coord : ℚ) : ℝ) / 8, Mode.normal),
       (r2.coord, r1.coord,
          ((manhattan_distance r1.coord r2.coord : ℚ) : ℝ) / 8, Mode.normal)] := by
  unfold routeEdges
  rw [heq]

theorem mem_routeEdges {nm : String} {rows : List Row} {e : EdgeT ℝ}
    (he : e ∈ routeEdges nm rows) :
    ∃ r1 r2, rowsWithPath nm rows = [r1, r2] ∧
      (e = (r1.coord, r2.coord,
          ((manhattan_distance r1.coord r2.coord : ℚ) : ℝ) / 8, Mode.normal) ∨
       e = (r2.coord, r1.coord,
          ((manhattan_distance r1.coord r2.coord : ℚ) : ℝ) / 8, Mode.normal)) := by
  unfold routeEdges at he
  split at he
  · rename_i r1 r2 heq
    rcases List.mem_cons.mp he with rfl | he'
    · exact ⟨r1, r2, heq, Or.inl rfl⟩
    · rw [List.mem_singleton] at he'
      exact ⟨r1, r2, heq, Or.inr he'⟩
  · cases he

theorem mem_fixedEdges {rows : List Row} {e : EdgeT ℝ} (he : e ∈ fixedEdges rows) :
    ∃ nm r1 r2, nm ∈ pathNames rows ∧ rowsWithPath nm rows = [r1, r2] ∧
      (e = (r1.coord, r2.coord,
          ((manhattan_distance r1.coord r2.coord : ℚ) : ℝ) / 8, Mode.normal) ∨
       e = (r2.coord, r1.coord,
          ((manhattan_distance r1.coord r2.coord : ℚ) : ℝ) / 8, Mode.normal)) := by
  obtain ⟨nm, hnm, he'⟩ := List.mem_flatMap.mp he
  obtain ⟨r1, r2, heq, hcase⟩ := mem_routeEdges he'
  exact ⟨nm, r1, r2, hnm, heq, hcase⟩

theorem fixedEdges_mode {rows : List Row} {e : EdgeT ℝ} (he : e ∈ fixedEdges rows) :
    e.2.2.2 = Mode.normal := by
  obtain ⟨nm, r1, r2, -, -, hcase⟩ := mem_fixedEdges he
  rcases hcase with rfl | rfl <;> rfl

theorem mem_build_iff {rows : List Row} {flag : Bool} {e : EdgeT ℝ} :
    e ∈ build_graph_from_excel rows flag ↔
      e ∈ fixedEdges rows ∨
      (flag = true ∧
        e ∈ pairEdges (fun p q => euclidean_distance p q / 72) Mode.ice
          (ice_highways rows)) ∨
      e ∈ pairEdges (fun p q => euclidean_distance p q / 3) Mode.walk
        (coordsOf rows) := by
  unfold build_graph_from_excel
  cases flag <;> simp [List.mem_append, or_assoc]

theorem build_graph_symm (rows : List Row) (flag : Bool) :
    SymmGraph (build_graph_from_excel rows flag) := by
  intro u v w m hmem
  rcases mem_build_iff.mp hmem with hf | ⟨hfl, hi⟩ | hwk
  · obtain ⟨nm, r1, r2, hnm, heq, hcase⟩ := mem_fixedEdges hf
    refine mem_build_iff.mpr (Or.inl (List.mem_flatMap.mpr ⟨nm, hnm, ?_⟩))
    rw [routeEdges_eq_of heq]
    rcases hcase with hc | hc <;> simp only [Prod.mk.injEq] at hc <;>
      obtain ⟨rfl, rfl, rfl, rfl⟩ := hc
    · exact List.mem_cons_of_mem _ (List.mem_singleton.mpr rfl)
    · exact List.mem_cons_self _ _
  · exact mem_build_iff.mpr (Or.inr (Or.inl ⟨hfl, pairEdges_symm _ _ _ hi⟩))
  · exact mem_build_iff.mpr (Or.inr (Or.inr (pairEdges_symm _ _ _ hwk)))

theorem build_graph_nonneg (rows : List Row) (flag : Bool) :
    ∀ e ∈ build_graph_from_excel rows flag, 0 ≤ e.2.2.1 := by
  intro e he
  rcases mem_build_iff.mp he with hf | ⟨-, hi⟩ | hwk
  · obtain ⟨nm, r1, r2, -, -, hcase⟩ := mem_fixedEdges hf
    rcases hcase with rfl | rfl <;>
      exact div_nonneg (by exact_mod_cast manhattan_distance_nonneg _ _) (by norm_num)
  · obtain ⟨p, q, -, hcase⟩ := (mem_pairEdges_iff _ _ _ _).mp hi
    rcases hcase with rfl | rfl <;>
      exact div_nonneg (euclidean_distance_nonneg _ _) (by norm_num)
  · obtain ⟨p, q, -, hcase⟩ := (mem_pairEdges_iff _ _ _ _).mp hwk
    rcases hcase with rfl | rfl <;>
      exact div_nonneg (euclidean_distance_nonneg _ _) (by norm_num)

/-- The number of directed edges of a given mode in the graph. -/
def modeCount {α : Type} (g : GraphT α) (m : Mode) : ℕ :=
  (g.filter fun e => decide (e.2.2.2 = m)).length

theorem filter_mode_pairEdges {α : Type} (w : Point → Point → α) (m : Mode)
    (l : List Point) :
    (pairEdges w m l).filter (fun e => decide (e.2.2.2 = m)) = pairEdges w m l :=
  List.filter_eq_self.mpr fun e he => by simp [pairEdges_mode he]

theorem filter_mode_eq_nil {α : Type} {g : GraphT α} {m m' : Mode}
    (h : ∀ e ∈ g, e.2.2.2 = m') (hne : m' ≠ m) :
    g.filter (fun e => decide (e.2.2.2 = m)) = [] :=
  List.filter_eq_nil_iff.mpr fun e he => by simp [h e he, hne]

theorem flatMap_pair_length {α : Type} (w : Point → Point → α) (m : Mode)
    (p : Point) (rest : List Point) :
    (rest.flatMap fun q => [(p, q, w p q, m), (q, p, w p q, m)]).length =
      2 * rest.length := by
  induction rest with
  | nil => rfl
  | cons x xs ih =>
    simp only [List.flatMap_cons, List.length_append, ih, List.length_cons,
      List.length_nil]
    omega

theorem pairEdges_length {α : Type} (w : Point → Point → α) (m : Mode) :
    ∀ l : List Point, (pairEdges w m l).length = l.length * (l.length - 1) := by
  intro l
  induction l with
  | nil => rfl
  | cons p rest ih =>
    rw [pairEdges, List.length_append, flatMap_pair_length w m p rest, ih]
    rcases hn : rest.length with - | k
    · simp [hn]
    · simp only [List.length_cons, hn, Nat.succ_sub_one]
      ring

theorem firstSeenAux_location_not_mem :
    ∀ (seen : List String) (rows : List Row) (r : Row),
      r ∈ firstSeenAux seen rows → r.location ∉ seen := by
  intro seen rows
  induction rows generalizing seen with
  | nil =>
    intro r hr
    cases hr
  | cons x xs ih =>
    intro r hr
    rw [firstSeenAux] at hr
    by_cases hx : x.location ∈ seen
    · rw [if_pos hx] at hr
      exact ih seen r hr
    · rw [if_neg hx] at hr
      rcases List.mem_cons.mp hr with rfl | hr'
      · exact hx
      · intro hcon
        exact ih _ r hr' (List.mem_cons_of_mem _ hcon)

theorem firstSeenAux_names_nodup :
    ∀ (seen : List String) (rows : List Row),
      ((firstSeenAux seen rows).map Row.location).Nodup := by
  intro seen rows
  induction rows generalizing seen with
  | nil => exact List.nodup_nil
  | cons x xs ih =>
    rw [firstSeenAux]
    by_cases hx : x.location ∈ seen
    · rw [if_pos hx]
      exact ih seen
    · rw [if_neg hx]
      rw [List.map_cons, List.nodup_cons]
      refine ⟨?_, ih _⟩
      intro hmem
      obtain ⟨r, hr, hloc⟩ := List.mem_map.mp hmem
      exact firstSeenAux_location_not_mem _ _ r hr (hloc ▸ List.mem_cons_self _ _)

theorem firstSeen_names_nodup (rows : List Row) :
    ((firstSeen rows).map Row.location).Nodup :=
  firstSeenAux_names_nodup [] rows

theorem mem_name_to_coord {rows : List Row} {A : String} {pa : Point}
    (h : (A, pa) ∈ name_to_coord rows) :
    ∃ r ∈ firstSeen rows, r.location = A ∧ r.coord = pa := by
  obtain ⟨r, hr, heq⟩ := List.mem_map.mp h
  simp only [Prod.mk.injEq] at heq
  exact ⟨r, hr, heq.1, heq.2⟩

/-- `{"normal": 8, "ice": 72, "walk": 3}.get(mode, 1)`.  The default `1` is
dead code: a trace's mode markers only ever hold one of the three tags. -/
def speedOf {α : Type} [LinearOrderedCommRing α] : Mode → α
  | Mode.normal => 8
  | Mode.ice => 72
  | Mode.walk => 3

/-- The numeric content of one entry of `route_steps`: source and target
coordinates, mode, `distance = segment_time * speed`, and `segment_time`.
The display strings built from these values are presentation-layer. -/
structure Seg (α : Type) : Type where
  src : Point
  dst : Point
  mode : Mode
  dist : α
  time : α
deriving DecidableEq

/-- The reconstruction loop's state: `total_time`, `total_distance`,
`route_steps`, `rail_paths`, plus whether the loop's `break` has fired. -/
structure RecState (α : Type) : Type where
  total_time : α
  total_distance : α
  route_steps : List (Seg α)
  rail_paths : List String
  broke : Bool
deriving DecidableEq

/-- `coord_pair_to_path.get(key)`: the most recent binding for the key wins,
as for assignments to a Python dict. -/
def lookupPair (tbl : List ((Point × Point) × String)) (k : Point × Point) :
    Option String :=
  (tbl.reverse.find? fun pr => decide (pr.1 = k)).map fun pr => pr.2

/-- The effect of one loop iteration on the state: `total_time = next_time`,
`total_distance += distance`, append the step, and — for `"normal"` segments
with a non-empty looked-up path name (`if path_name:`) — append the rail
path. -/
def segUpdate {α : Type} [LinearOrderedCommRing α]
    (tbl : List ((Point × Point) × String)) (c c' : Point) (tc t' : α)
    (m : Mode) (st : RecState α) : RecState α :=
  { total_time := t'
    total_distance := st.total_distance + (t' - tc) * speedOf m
    route_steps := st.route_steps ++ [⟨c, c', m, (t' - tc) * speedOf m, t' - tc⟩]
    rail_paths :=
      if m = Mode.normal then
        match lookupPair tbl (c, c') with
        | some nm => if nm = "" then st.rail_paths else st.rail_paths ++ [nm]
        | none => st.rail_paths
      else st.rail_paths
    broke := st.broke }

/-- The body of `for i in range(0, len(path) - 2, 2)`: the (unreachable)
`if i + 2 >= len(path): break` guard, then the reads `path[i]`,
`path[i+1]`, `path[i+2]`.  Index patterns other than hop/mode/hop never
arise on the traces `dijkstra` returns (see the shape lemmas); on such dead
inputs the iteration leaves the state unchanged. -/
def segBody {α : Type} [LinearOrderedCommRing α]
    (tbl : List ((Point × Point) × String)) (tr : List (Entry α))
    (st : RecState α) (i : ℕ) : RecState α :=
  if st.broke then st
  else if tr.length ≤ i + 2 then { st with broke := true }
  else
    match tr.get? i, tr.get? (i + 1), tr.get? (i + 2) with
    | some (Entry.hop c tc), some (Entry.mode m), some (Entry.hop c' t') =>
        segUpdate tbl c c' tc t' m st
    | _, _, _ => st

/-- `range(0, stop, 2)` as the list `[0, 2, 4, ...]` of indices below
`stop`. -/
def rangeStep2 (stop : ℕ) : List ℕ :=
  (List.range ((stop + 1) / 2)).map fun k => 2 * k

/-- `main`'s segment-reconstruction loop over a raw search trace, started
from `total_time = 0`, `total_distance = 0`, empty `route_steps` and
`rail_paths`. -/
def reconstruct {α : Type} [LinearOrderedCommRing α]
    (tbl : List ((Point × Point) × String)) (tr : List (Entry α)) : RecState α :=
  (rangeStep2 (tr.length - 2)).foldl (segBody tbl tr) ⟨0, 0, [], [], false⟩

/-- The segments of a well-formed trace, one per consecutive hop/mode/hop
triple. -/
def segsOf {α : Type} [LinearOrderedCommRing α] : List (Entry α) → List (Seg α)
  | Entry.hop c tc :: Entry.mode m :: Entry.hop c' t' :: rest =>
      ⟨c, c', m, (t' - tc) * speedOf m, t' - tc⟩ ::
        segsOf (Entry.hop c' t' :: rest)
  | _ => []

/-- Total elapsed time of a segment list. -/
def sumTimes {α : Type} [LinearOrderedCommRing α] (l : List (Seg α)) : α :=
  (l.map Seg.time).sum

/-- Total distance of a segment list. -/
def sumDists {α : Type} [LinearOrderedCommRing α] (l : List (Seg α)) : α :=
  (l.map Seg.dist).sum

theorem Alt.head_decomp {α : Type} {l : List (Entry α)} (h : Alt l) :
    ∃ p t rest, l = Entry.hop p t :: rest := by
  cases h with
  | single p t => exact ⟨p, t, [], rfl⟩
  | cons p t m h' => exact ⟨p, t, _, rfl⟩

theorem rangeStep2_odd (k : ℕ) :
    rangeStep2 (2 * k + 1) = 0 :: (rangeStep2 (2 * k - 1)).map (· + 2) := by
  unfold rangeStep2
  have h1 : (2 * k + 1 + 1) / 2 = k + 1 := by omega
  have h2 : (2 * k - 1 + 1) / 2 = k := by omega
  rw [h1, h2, List.range_succ_eq_map, List.map_cons, List.map_map, List.map_map]
  refine congrArg (List.cons _) (congrArg (fun f => List.map f (List.range k)) ?_)
  funext j
  show 2 * (j + 1) = 2 * j + 2
  omega

theorem segBody_shift {α : Type} [LinearOrderedCommRing α]
    (tbl : List ((Point × Point) × String)) (e1 e2 : Entry α)
    (rest : List (Entry α)) (st : RecState α) (i : ℕ) :
    segBody tbl (e1 :: e2 :: rest) st (i + 2) = segBody tbl rest st i := by
  unfold segBody
  have h1 : ((e1 :: e2 :: rest).length ≤ i + 2 + 2) ↔ (rest.length ≤ i + 2) := by
    simp only [List.length_cons]
    omega
  have h2 : (e1 :: e2 :: rest).get? (i + 2) = rest.get? i := rfl
  have h3 : (e1 :: e2 :: rest).get? (i + 2 + 1) = rest.get? (i + 1) := rfl
  have h4 : (e1 :: e2 :: rest).get? (i + 2 + 2) = rest.get? (i + 2) := rfl
  simp only [h1, h2, h3, h4]

theorem foldl_segBody_shift {α : Type} [LinearOrderedCommRing α]
    (tbl : List ((Point × Point) × String)) (e1 e2 : Entry α)
    (rest : List (Entry α)) :
    ∀ (l : List ℕ) (st : RecState α),
      (l.map (· + 2)).foldl (segBody tbl (e1 :: e2 :: rest)) st =
        l.foldl (segBody tbl rest) st := by
  intro l
  induction l with
  | nil =>
    intro st
    rfl
  | cons j js ih =>
    intro st
    simp only [List.map_cons, List.foldl_cons, segBody_shift, ih]

/-- The loop over a well-formed trace: no `break`, one appended step per
hop/mode/hop triple, accumulated distance, and the final `total_time`
assignment. -/
theorem foldl_segBody_alt {α : Type} [LinearOrderedCommRing α]
    (tbl : List ((Point × Point) × String)) :
    ∀ (tr : List (Entry α)), Alt tr → ∀ st : RecState α, st.broke = false →
      (rangeStep2 (tr.length - 2)).foldl (segBody tbl tr) st =
        { total_time :=
            if tr.length = 1 then st.total_time
            else ((timesOf tr).getLast?).getD st.total_time
          total_distance := st.total_distance + sumDists (segsOf tr)
          route_steps := st.route_steps ++ segsOf tr
          rail_paths :=
            ((rangeStep2 (tr.length - 2)).foldl (segBody tbl tr) st).rail_paths
          broke := false } := by
  intro tr halt
  induction halt with
  | single p t =>
    intro st hb
    have h0 : rangeStep2 ([Entry.hop p t].length - 2) = [] := by
      simp [rangeStep2]
    rw [h0]
    simp only [List.foldl_nil]
    cases st
    simp_all [segsOf, sumDists]
  | @cons p t m rest h ih =>
    intro st hb
    obtain ⟨c', t', rest'', rfl⟩ := h.head_decomp
    have hodd := h.length_odd
    obtain ⟨k, hk⟩ : ∃ k, (Entry.hop c' t' :: rest'').length = 2 * k + 1 :=
      ⟨(Entry.hop c' t' :: rest'').length / 2, by omega⟩
    have hlen : (Entry.hop p t :: Entry.mode m ::
        Entry.hop c' t' :: rest'').length - 2 = 2 * k + 1 := by
      simp only [List.length_cons] at hk ⊢
      omega
    have hb0 : segBody tbl
        (Entry.hop p t :: Entry.mode m :: Entry.hop c' t' :: rest'') st 0 =
        segUpdate tbl p c' t t' m st := by
      unfold segBody
      rw [if_neg (by simp [hb]), if_neg (by simp only [List.length_cons]; omega)]
      rfl
    have hk' : 2 * k - 1 = (Entry.hop c' t' :: rest'').length - 2 := by omega
    have hbroke' : (segUpdate tbl p c' t t' m st).broke = false := by
      simp [segUpdate, hb]
    rw [hlen, rangeStep2_odd, List.foldl_cons, hb0, hk', foldl_segBody_shift,
      ih _ hbroke']
    have hsegs : segsOf (Entry.hop p t :: Entry.mode m ::
        Entry.hop c' t' :: rest'') =
        (⟨p, c', m, (t' - t) * speedOf m, t' - t⟩ : Seg α) ::
          segsOf (Entry.hop c' t' :: rest'') := rfl
    congr 1
    · -- total_time
      rw [if_neg (show ¬((Entry.hop p t :: Entry.mode m ::
          Entry.hop c' t' :: rest'').length = 1) by
        simp only [List.length_cons]
        omega)]
      by_cases h1 : (Entry.hop c' t' :: rest'').length = 1
      · have hr : rest'' = [] := by simpa using h1
        subst hr
        rw [if_pos h1]
        have ht2 : timesOf [Entry.hop p t, Entry.mode m, Entry.hop c' t'] =
            [t, t'] := rfl
        rw [ht2]
        simp [segUpdate]
      · rw [if_neg h1]
        have ht2 : timesOf (Entry.hop p t :: Entry.mode m ::
            Entry.hop c' t' :: rest'') = t :: t' :: timesOf rest'' := rfl
        have ht3 : timesOf (Entry.hop c' t' :: rest'') = t' :: timesOf rest'' := rfl
        rw [ht2, ht3, List.getLast?_cons_cons]
        rcases hgl : (t' :: timesOf rest'').getLast? with - | x
        · have hsome : (t' :: timesOf rest'').getLast?.isSome :=
            List.getLast?_isSome.mpr (by simp)
          rw [hgl] at hsome
          cases hsome
        · rfl
    · -- total_distance
      rw [hsegs]
      simp only [segUpdate, sumDists, List.map_cons, List.sum_cons]
      ring
    · -- route_steps
      rw [hsegs]
      simp [segUpdate]

theorem sumTimes_segsOf {α : Type} [LinearOrderedCommRing α] :
    ∀ (tr : List (Entry α)), Alt tr → ∀ p t q T,
      tr.head? = some (Entry.hop p t) → tr.getLast? = some (Entry.hop q T) →
      sumTimes (segsOf tr) = T - t := by
  intro tr halt
  induction halt with
  | single p0 t0 =>
    intro p t q T hh hl
    simp only [List.head?_cons, Option.some.injEq, Entry.hop.injEq] at hh
    rw [List.getLast?_singleton] at hl
    simp only [Option.some.injEq, Entry.hop.injEq] at hl
    rw [← hh.2, ← hl.2]
    simp [segsOf, sumTimes]
  | @cons p0 t0 m rest h ih =>
    intro p t q T hh hl
    obtain ⟨c', t', rest'', rfl⟩ := h.head_decomp
    simp only [List.head?_cons, Option.some.injEq, Entry.hop.injEq] at hh
    rw [List.getLast?_cons_cons, List.getLast?_cons_cons] at hl
    have hrec := ih c' t' q T rfl hl
    have hseg : segsOf (Entry.hop p0 t0 :: Entry.mode m ::
        Entry.hop c' t' :: rest'') =
        (⟨p0, c', m, (t' - t0) * speedOf m, t' - t0⟩ : Seg α) ::
          segsOf (Entry.hop c' t' :: rest'') := rfl
    rw [hseg]
    simp only [sumTimes, List.map_cons, List.sum_cons] at hrec ⊢
    rw [hrec, ← hh.2]
    ring

theorem segsOf_dist {α : Type} [LinearOrderedCommRing α] :
    ∀ (tr : List (Entry α)), Alt tr →
      ∀ s ∈ segsOf tr, s.dist = s.time * speedOf s.mode := by
  intro tr halt
  induction halt with
  | single p t =>
    intro s hs
    simp [segsOf] at hs
  | @cons p t m rest h ih =>
    intro s hs
    obtain ⟨c', t', rest'', rfl⟩ := h.head_decomp
    have hseg : segsOf (Entry.hop p t :: Entry.mode m ::
        Entry.hop c' t' :: rest'') =
        (⟨p, c', m, (t' - t) * speedOf m, t' - t⟩ : Seg α) ::
          segsOf (Entry.hop c' t' :: rest'') := rfl
    rw [hseg] at hs
    rcases List.mem_cons.mp hs with rfl | hs'
    · rfl
    · exact ih s hs'

theorem segsOf_length {α : Type} [LinearOrderedCommRing α] :
    ∀ (tr : List (Entry α)), Alt tr → (segsOf tr).length = tr.length / 2 := by
  intro tr halt
  induction halt with
  | single p t => simp [segsOf]
  | @cons p t m rest h ih =>
    obtain ⟨c', t', rest'', rfl⟩ := h.head_decomp
    have hseg : segsOf (Entry.hop p t :: Entry.mode m ::
        Entry.hop c' t' :: rest'') =
        (⟨p, c', m, (t' - t) * speedOf m, t' - t⟩ : Seg α) ::
          segsOf (Entry.hop c' t' :: rest'') := rfl
    rw [hseg]
    simp only [List.length_cons, ih]
    omega

theorem segsOf_getLast {α : Type} [LinearOrderedCommRing α] :
    ∀ (tr : List (Entry α)), Alt tr → ∀ q T,
      tr.getLast? = some (Entry.hop q T) → 1 < tr.length →
      ∃ s, (segsOf tr).getLast? = some s ∧ s.dst = q := by
  intro tr halt
  induction halt with
  | single p t =>
    intro q T hl hlen
    rw [List.length_singleton] at hlen
    omega
  | @cons p t m rest h ih =>
    intro q T hl hlen
    obtain ⟨c', t', rest'', rfl⟩ := h.head_decomp
    rw [List.getLast?_cons_cons, List.getLast?_cons_cons] at hl
    cases h with
    | single =>
      refine ⟨⟨p, c', m, (t' - t) * speedOf m, t' - t⟩, rfl, ?_⟩
      rw [List.getLast?_singleton] at hl
      simp only [Option.some.injEq, Entry.hop.injEq] at hl
      exact hl.1
    | @cons c2 t2 m2 rest2 h2 =>
      have hlen' : 1 < (Entry.hop c' t' :: Entry.mode m2 :: rest2).length := by
        simp only [List.length_cons]
        omega
      obtain ⟨s, hgl, hdst⟩ := ih q T hl hlen'
      have hseg : segsOf (Entry.hop p t :: Entry.mode m ::
          Entry.hop c' t' :: Entry.mode m2 :: rest2) =
          (⟨p, c', m, (t' - t) * speedOf m, t' - t⟩ : Seg α) ::
            segsOf (Entry.hop c' t' :: Entry.mode m2 :: rest2) := rfl
      rw [hseg]
      rcases hsr : segsOf (Entry.hop c' t' :: Entry.mode m2 :: rest2) with - | ⟨s0, sl⟩
      · rw [hsr] at hgl
        cases hgl
      · rw [hsr] at hgl
        rw [List.getLast?_cons_cons, hgl]
        exact ⟨s, rfl, hdst⟩

theorem timesOf_getLast {α : Type} :
    ∀ (tr : List (Entry α)), Alt tr → ∀ q T,
      tr.getLast? = some (Entry.hop q T) → (timesOf tr).getLast? = some T := by
  intro tr halt
  induction halt with
  | single p t =>
    intro q T hl
    rw [List.getLast?_singleton] at hl
    simp only [Option.some.injEq, Entry.hop.injEq] at hl
    rw [← hl.2]
    rfl
  | @cons p t m rest h ih =>
    intro q T hl
    obtain ⟨c', t', rest'', rfl⟩ := h.head_decomp
    rw [List.getLast?_cons_cons, List.getLast?_cons_cons] at hl
    have hrec := ih q T hl
    have ht2 : timesOf (Entry.hop p t :: Entry.mode m ::
        Entry.hop c' t' :: rest'') = t :: t' :: timesOf rest'' := rfl
    have ht3 : timesOf (Entry.hop c' t' :: rest'') = t' :: timesOf rest'' := rfl
    rw [ht2, List.getLast?_cons_cons, ← ht3, hrec]

/-- `main`'s reconstruction on a well-formed trace: the loop never breaks,
produces exactly the per-pair segments, and accumulates their totals. -/
theorem reconstruct_alt {α : Type} [LinearOrderedCommRing α]
    (tbl : List ((Point × Point) × String)) (tr : List (Entry α)) (halt : Alt tr) :
    (reconstruct tbl tr).route_steps = segsOf tr ∧
    (reconstruct tbl tr).total_distance = sumDists (segsOf tr) ∧
    (reconstruct tbl tr).broke = false ∧
    (reconstruct tbl tr).total_time =
      (if tr.length = 1 then 0 else ((timesOf tr).getLast?).getD 0) := by
  unfold reconstruct
  rw [foldl_segBody_alt tbl tr halt _ rfl]
  exact ⟨by simp, by simp, rfl, rfl⟩

/-- Characters `urllib.parse.quote` never encodes (letters, digits, and
`_.-~`). -/
def isUnreservedChar (c : Char) : Bool :=
  c.isAlphanum || c == '_' || c == '.' || c == '-' || c == '~'

/-- Uppercase hexadecimal digit of a value below 16. -/
def hexDigit (n : ℕ) : Char :=
  if n < 10 then Char.ofNat (48 + n) else Char.ofNat (55 + n)

/-- The UTF-8 bytes of one character. -/
def utf8Bytes (c : Char) : List ℕ :=
  let n := c.toNat
  if n < 128 then [n]
  else if n < 2048 then [192 + n / 64, 128 + n % 64]
  else if n < 65536 then [224 + n / 4096, 128 + (n / 64) % 64, 128 + n % 64]
  else [240 + n / 262144, 128 + (n / 4096) % 64, 128 + (n / 64) % 64, 128 + n % 64]

/-- Percent-encode one byte, uppercase. -/
def pctByte (b : ℕ) : String :=
  String.mk ['%', hexDigit (b / 16), hexDigit (b % 16)]

/-- `urllib.parse.quote(s, safe=',')`: keep unreserved characters and the
comma, percent-encode every other character byte-wise. -/
def quoteSafeComma (s : String) : String :=
  String.join (s.toList.map fun c =>
    if isUnreservedChar c || c == ',' then String.singleton c
    else String.join ((utf8Bytes c).map pctByte))

/-- The fixed Tableau-embed URL prefix of `view_on_map`. -/
def mapBaseUrl : String :=
  "https://public.tableau.com/views/MinecraftRealmsAioniaMapTest/AioniaWayfinder?Show%20Trains=1&"

/-- The fixed embed-parameter suffix of `view_on_map`. -/
def mapUrlSuffix : String :=
  "&:embed=yes&:showVizHome=no&:host_url=https%3A%2F%2Fpublic.tableau.com%2F&:embed_code_version=3&:tabs=no&:toolbar=yes&:showAppBanner=false&:display_spinner=no"

/-- `view_on_map(rail_paths)`: `None` for an empty (falsy) collection,
otherwise the embed URL around the comma-joined, percent-encoded names. -/
def view_on_map (rail_paths : List String) : Option String :=
  if rail_paths = [] then none
  else some (mapBaseUrl ++ "Path=" ++
    quoteSafeComma (String.intercalate "," rail_paths) ++ mapUrlSuffix)

theorem mem_coord_pair_to_path {rows : List Row} {pr : (Point × Point) × String}
    (h : pr ∈ coord_pair_to_path rows) :
    pr.2 ∈ pathNames rows ∧ ∃ r1 r2, rowsWithPath pr.2 rows = [r1, r2] ∧
      (pr.1 = (r1.coord, r2.coord) ∨ pr.1 = (r2.coord, r1.coord)) := by
  obtain ⟨nm, hnm, hpr⟩ := List.mem_flatMap.mp h
  split at hpr
  · rename_i r1 r2 heq
    rcases List.mem_cons.mp hpr with rfl | hpr'
    · exact ⟨hnm, r1, r2, heq, Or.inl rfl⟩
    · rw [List.mem_singleton] at hpr'
      subst hpr'
      exact ⟨hnm, r1, r2, heq, Or.inr rfl⟩
  · cases hpr

theorem flatMap_congr_of_mem {β γ : Type} {f g : β → List γ} :
    ∀ l : List β, (∀ x ∈ l, f x = g x) → l.flatMap f = l.flatMap g := by
  intro l
  induction l with
  | nil => intro h; rfl
  | cons x xs ih =>
    intro h
    rw [List.flatMap_cons, List.flatMap_cons, h x (List.mem_cons_self _ _),
      ih fun y hy => h y (List.mem_cons_of_mem _ hy)]

theorem pathNames_append_unnamed (rows : List Row) {r : Row} (hr : r.path = none) :
    pathNames (rows ++ [r]) = pathNames rows := by
  unfold pathNames
  rw [List.filterMap_append]
  have : List.filterMap Row.path [r] = [] := by simp [hr]
  rw [this, List.append_nil]

theorem rowsWithPath_append_unnamed (nm : String) (rows : List Row) {r : Row}
    (hr : r.path = none) :
    rowsWithPath nm (rows ++ [r]) = rowsWithPath nm rows := by
  unfold rowsWithPath
  rw [List.filter_append]
  have : List.filter (fun r' => decide (r'.path = some nm)) [r] = [] := by
    simp [hr]
  rw [this, List.append_nil]

theorem fixedEdges_append_unnamed (rows : List Row) {r : Row} (hr : r.path = none) :
    fixedEdges (rows ++ [r]) = fixedEdges rows := by
  unfold fixedEdges
  rw [pathNames_append_unnamed rows hr]
  refine flatMap_congr_of_mem _ fun nm _ => ?_
  unfold routeEdges
  rw [rowsWithPath_append_unnamed nm rows hr]

theorem coord_pair_to_path_append_unnamed (rows : List Row) {r : Row}
    (hr : r.path = none) :
    coord_pair_to_path (rows ++ [r]) = coord_pair_to_path rows := by
  unfold coord_pair_to_path
  rw [pathNames_append_unnamed rows hr]
  refine flatMap_congr_of_mem _ fun nm _ => ?_
  rw [rowsWithPath_append_unnamed nm rows hr]

theorem mem_build_of_walk {rows : List Row} {flag : Bool} {e : EdgeT ℝ}
    (h : e ∈ pairEdges (fun p q => euclidean_distance p q / 3) Mode.walk
      (coordsOf rows)) : e ∈ build_graph_from_excel rows flag :=
  mem_build_iff.mpr (Or.inr (Or.inr h))

/-- Distinct location names always produce the two walking edges, with the
same weight `euclidean_distance / 3` in both directions. -/
theorem walk_edges_mem {rows : List Row} {A B : String} {pa pb : Point}
    (flag : Bool) (hA : (A, pa) ∈ name_to_coord rows)
    (hB : (B, pb) ∈ name_to_coord rows) (hAB : A ≠ B) :
    (pa, pb, euclidean_distance pa pb / 3, Mode.walk) ∈
        build_graph_from_excel rows flag ∧
      (pb, pa, euclidean_distance pa pb / 3, Mode.walk) ∈
        build_graph_from_excel rows flag := by
  obtain ⟨r1, hr1, hl1, hc1⟩ := mem_name_to_coord hA
  obtain ⟨r2, hr2, hl2, hc2⟩ := mem_name_to_coord hB
  have hne : r1 ≠ r2 := fun h => hAB (by rw [← hl1, ← hl2, h])
  have hsub : [pa, pb].Sublist (coordsOf rows) ∨
      [pb, pa].Sublist (coordsOf rows) := by
    rcases sublist_pair_of_mem hr1 hr2 hne with h | h
    · left
      have h2 := h.map Row.coord
      rw [List.map_cons, List.map_cons, List.map_nil, hc1, hc2] at h2
      exact h2
    · right
      have h2 := h.map Row.coord
      rw [List.map_cons, List.map_cons, List.map_nil, hc1, hc2] at h2
      exact h2
  rcases hsub with h | h
  · exact ⟨mem_build_of_walk ((mem_pairEdges_iff _ _ _ _).mpr ⟨pa, pb, h, Or.inl rfl⟩),
      mem_build_of_walk ((mem_pairEdges_iff _ _ _ _).mpr ⟨pa, pb, h, Or.inr rfl⟩)⟩
  · have hcm : euclidean_distance pa pb = euclidean_distance pb pa :=
      euclidean_distance_comm pa pb
    constructor
    · refine mem_build_of_walk ((mem_pairEdges_iff _ _ _ _).mpr ⟨pb, pa, h, Or.inr ?_⟩)
      rw [hcm]
    · refine mem_build_of_walk ((mem_pairEdges_iff _ _ _ _).mpr ⟨pb, pa, h, Or.inl ?_⟩)
      rw [hcm]

/-- Fast-lane edges exist only when enabled and only between ice-highway
coordinates. -/
theorem ice_edge_tagged {rows : List Row} {flag : Bool} {e : EdgeT ℝ}
    (he : e ∈ build_graph_from_excel rows flag) (hm : e.2.2.2 = Mode.ice) :
    flag = true ∧ e.1 ∈ ice_highways rows ∧ e.2.1 ∈ ice_highways rows := by
  rcases mem_build_iff.mp he with hf | ⟨hfl, hi⟩ | hwk
  · rw [fixedEdges_mode hf] at hm
    cases hm
  · obtain ⟨p, q, hsub, hcase⟩ := (mem_pairEdges_iff _ _ _ _).mp hi
    have hp : p ∈ ice_highways rows := hsub.subset (List.mem_cons_self _ _)
    have hq : q ∈ ice_highways rows :=
      hsub.subset (List.mem_cons_of_mem _ (List.mem_singleton.mpr rfl))
    rcases hcase with rfl | rfl
    · exact ⟨hfl, hp, hq⟩
    · exact ⟨hfl, hq, hp⟩
  · have := pairEdges_mode hwk
    rw [this] at hm
    cases hm

/-- The exact count of directed fast-lane edges. -/
theorem modeCount_ice (rows : List Row) (flag : Bool) :
    modeCount (build_graph_from_excel rows flag) Mode.ice =
      if flag then (ice_highways rows).length * ((ice_highways rows).length - 1)
      else 0 := by
  unfold modeCount build_graph_from_excel
  rw [List.filter_append, List.filter_append, List.length_append,
    List.length_append,
    filter_mode_eq_nil (fun e he => fixedEdges_mode he) (by decide),
    filter_mode_eq_nil (fun e he => pairEdges_mode he) (by decide)]
  cases flag
  · simp
  · rw [if_pos rfl, if_pos rfl, filter_mode_pairEdges, pairEdges_length]
    simp

/-- On a symmetric non-negative graph, the two directions of a query reach
each other with the same optimal total time. -/
theorem dijkstra_symm_total {α : Type} [LinearOrderedAddCommMonoid α]
    {g : GraphT α} (hsym : SymmGraph g) (hw : ∀ e ∈ g, 0 ≤ e.2.2.1)
    {a b : Point} {c : α} (hc : CostReach g a b c) :
    ∃ trA trB T, dijkstra g a b = some trA ∧ dijkstra g b a = some trB ∧
      trA.getLast? = some (Entry.hop b T) ∧
      trB.getLast? = some (Entry.hop a T) := by
  obtain ⟨trA, TA, hA, hlastA, hreachA, hminA⟩ := dijkstra_optimal_general hw hc
  obtain ⟨trB, TB, hB, hlastB, hreachB, hminB⟩ :=
    dijkstra_optimal_general hw (hc.rev hsym)
  have h1 : TA ≤ TB := hminA TB (hreachB.rev hsym)
  have h2 : TB ≤ TA := hminB TA (hreachA.rev hsym)
  have hTT : TA = TB := le_antisymm h1 h2
  exact ⟨trA, trB, TA, hA, hB, hlastA, hTT ▸ hlastB⟩

theorem nodup_keys_functional {β γ : Type} :
    ∀ (l : List (β × γ)), (l.map Prod.fst).Nodup →
      ∀ {a : β} {b c : γ}, (a, b) ∈ l → (a, c) ∈ l → b = c := by
  intro l
  induction l with
  | nil =>
    intro _ a b c h
    cases h
  | cons x xs ih =>
    intro hnd a b c hb hc
    rw [List.map_cons, List.nodup_cons] at hnd
    rcases List.mem_cons.mp hb with rfl | hb' <;>
      rcases List.mem_cons.mp hc with heq | hc'
    · exact (congrArg Prod.snd heq).symm
    · exact absurd (List.mem_map_of_mem Prod.fst hc') hnd.1
    · rw [← heq] at hnd
      exact absurd (List.mem_map_of_mem Prod.fst hb') hnd.1
    · exact ih hnd.2 hb' hc'

theorem name_to_coord_functional {rows : List Row} {A : String} {pa pb : Point}
    (hA : (A, pa) ∈ name_to_coord rows) (hB : (A, pb) ∈ name_to_coord rows) :
    pa = pb := by
  have hnd : ((name_to_coord rows).map Prod.fst).Nodup := by
    unfold name_to_coord
    rw [List.map_map]
    exact firstSeen_names_nodup rows
  exact nodup_keys_functional _ hnd hA hB

/-- C1: for every graph with non-negative edge weights, if the goal is
reachable from the start then `dijkstra` returns a trace whose final
cumulative time is attained by a walk from start to goal and is a lower
bound of every walk's total travel time (i.e. it is the minimum), and the
goal node appears exactly once among the trace's hops, as the final hop —
the encoding of termination on the first pop of the goal. -/
theorem claim_C1 {g : GraphT ℝ} {s goal : Point}
    (hw : ∀ e ∈ g, 0 ≤ e.2.2.1) (hreach : ∃ c : ℝ, CostReach g s goal c) :
    ∃ tr T, dijkstra g s goal = some tr ∧
      tr.getLast? = some (Entry.hop goal T) ∧
      CostReach g s goal T ∧ (∀ c : ℝ, CostReach g s goal c → T ≤ c) ∧
      List.count goal (hopsOf tr) = 1 := by
  obtain ⟨c, hc⟩ := hreach
  obtain ⟨tr, T, htr, hlast, hTr, hmin⟩ := dijkstra_optimal_general hw hc
  obtain ⟨T', -, -, -, hcount, -⟩ := dijkstra_shape_general htr
  exact ⟨tr, T, htr, hlast, hTr, hmin, hcount⟩

/-- The weights of the walking-mode edges from `p` to `q`. -/
def walkWeights (g : GraphT ℝ) (p q : Point) : List ℝ :=
  (g.filter fun e =>
    decide (e.1 = p ∧ e.2.1 = q ∧ e.2.2.2 = Mode.walk)).map fun e => e.2.2.1

/-- C2 (amended): for every pair of distinct known Locations **whose Points
differ**, the built graph contains the walking edge in both directions, both
directions carrying the same weight `euclidean_distance / 3`, and that
weight is strictly positive.  (As frozen the claim is false: two distinct
Locations may share a Point, and then the walking edge has weight 0 — see
the counterexample.) -/
theorem claim_C2 {rows : List Row} {A B : String} {pa pb : Point} (flag : Bool)
    (hA : (A, pa) ∈ name_to_coord rows) (hB : (B, pb) ∈ name_to_coord rows)
    (hAB : A ≠ B) (hp : pa ≠ pb) :
    (pa, pb, euclidean_distance pa pb / 3, Mode.walk) ∈
        build_graph_from_excel rows flag ∧
    (pb, pa, euclidean_distance pa pb / 3, Mode.walk) ∈
        build_graph_from_excel rows flag ∧
    0 < euclidean_distance pa pb / 3 :=
  ⟨(walk_edges_mem flag hA hB hAB).1, (walk_edges_mem flag hA hB hAB).2,
    div_pos (euclidean_distance_pos hp) (by norm_num)⟩

/-- C3: fast-lane edges exist only between ice-highway-tagged coordinates
and only when enabled; the number of directed ice edges is exactly
`k * (k - 1)` for `k` tagged Locations when enabled, and zero otherwise. -/
theorem claim_C3 (rows : List Row) (flag : Bool) :
    (modeCount (build_graph_from_excel rows flag) Mode.ice =
      if flag then (ice_highways rows).length * ((ice_highways rows).length - 1)
      else 0) ∧
    ∀ e ∈ build_graph_from_excel rows flag, e.2.2.2 = Mode.ice →
      flag = true ∧ e.1 ∈ ice_highways rows ∧ e.2.1 ∈ ice_highways rows :=
  ⟨modeCount_ice rows flag, fun e he hm => ice_edge_tagged he hm⟩

/-- C4: a grouping whose member count is not exactly two contributes no
route-name lookup entry; every rail edge of the graph is fully attributable
to some two-member named grouping (never a partial connection, and never
the malformed one); and a row with a missing route name contributes neither
rail edges nor lookup entries. -/
theorem claim_C4 (rows : List Row) (flag : Bool) (nm : String)
    (hcount : (rowsWithPath nm rows).length ≠ 2) :
    (∀ pr ∈ coord_pair_to_path rows, pr.2 ≠ nm) ∧
    (∀ e ∈ build_graph_from_excel rows flag, e.2.2.2 = Mode.normal →
      ∃ nm' r1 r2, nm' ≠ nm ∧ rowsWithPath nm' rows = [r1, r2] ∧
        (e = (r1.coord, r2.coord,
            ((manhattan_distance r1.coord r2.coord : ℚ) : ℝ) / 8, Mode.normal) ∨
         e = (r2.coord, r1.coord,
            ((manhattan_distance r1.coord r2.coord : ℚ) : ℝ) / 8, Mode.normal))) ∧
    (∀ r : Row, r.path = none →
      fixedEdges (rows ++ [r]) = fixedEdges rows ∧
      coord_pair_to_path (rows ++ [r]) = coord_pair_to_path rows) := by
  refine ⟨?_, ?_, ?_⟩
  · intro pr hpr hprnm
    obtain ⟨-, r1, r2, heq, -⟩ := mem_coord_pair_to_path hpr
    rw [hprnm] at heq
    rw [heq] at hcount
    exact hcount rfl
  · intro e he hm
    rcases mem_build_iff.mp he with hf | ⟨-, hi⟩ | hwk
    · obtain ⟨nm', r1, r2, hnm', heq, hcase⟩ := mem_fixedEdges hf
      refine ⟨nm', r1, r2, ?_, heq, hcase⟩
      intro hco
      rw [hco] at heq
      rw [heq] at hcount
      exact hcount rfl
    · rw [pairEdges_mode hi] at hm
      cases hm
    · rw [pairEdges_mode hwk] at hm
      cases hm
  · intro r hr
    exact ⟨fixedEdges_append_unnamed rows hr,
      coord_pair_to_path_append_unnamed rows hr⟩

/-- C5: for every trace the search returns (the traces the reconstruction
consumes), the per-segment elapsed times of the reconstruction sum to its
reported `total_time`, the reported `total_time` equals the final hop's
cumulative time, the per-segment distances (each `elapsed * speed`) sum to
the reported `total_distance`.  Stated for the weight-polymorphic loop; the
program instantiates it at the reals. -/
theorem claim_C5 {α : Type} [LinearOrderedCommRing α] {g : GraphT α}
    {s goal : Point} {tr : List (Entry α)}
    (tbl : List ((Point × Point) × String))
    (htr : dijkstra g s goal = some tr) :
    sumTimes (reconstruct tbl tr).route_steps = (reconstruct tbl tr).total_time ∧
    (∀ T, tr.getLast? = some (Entry.hop goal T) →
      (reconstruct tbl tr).total_time = T) ∧
    sumDists (reconstruct tbl tr).route_steps =
      (reconstruct tbl tr).total_distance ∧
    (∀ sg ∈ (reconstruct tbl tr).route_steps,
      sg.dist = sg.time * speedOf sg.mode) := by
  obtain ⟨T, halt, hhead, hlast, -, -⟩ := dijkstra_shape_general htr
  obtain ⟨hrs, htd, -, htt⟩ := reconstruct_alt tbl tr halt
  have htot : (reconstruct tbl tr).total_time = T := by
    rw [htt]
    by_cases h1 : tr.length = 1
    · rw [if_pos h1]
      rcases tr with - | ⟨e, rest⟩
      · cases hhead
      · have hr : rest = [] := by
          rw [List.length_cons] at h1
          exact List.length_eq_zero.mp (by omega)
        subst hr
        rw [List.head?_cons] at hhead
        rw [List.getLast?_singleton] at hlast
        rw [hhead] at hlast
        simp only [Option.some.injEq, Entry.hop.injEq] at hlast
        exact hlast.2
    · rw [if_neg h1, timesOf_getLast tr halt goal T hlast]
      rfl
  have hTeq : ∀ T', tr.getLast? = some (Entry.hop goal T') → T' = T := by
    intro T' h'
    rw [hlast] at h'
    simp only [Option.some.injEq, Entry.hop.injEq] at h'
    exact h'.2.symm
  refine ⟨?_, ?_, ?_, ?_⟩
  · rw [hrs, htot]
    have := sumTimes_segsOf tr halt s 0 goal T hhead hlast
    rw [this]
    ring
  · intro T' h'
    rw [htot, hTeq T' h']
  · rw [hrs, htd]
  · intro sg hsg
    rw [hrs] at hsg
    exact segsOf_dist tr halt sg hsg

/-- C7: for every pair of known location names and either fast-lane flag,
the search's total time from A to B equals the total time from B to A:
every edge is added in both directions with identical cost, so the built
graph is symmetric and optimal costs coincide. -/
theorem claim_C7 {rows : List Row} {A B : String} {pa pb : Point} (flag : Bool)
    (hA : (A, pa) ∈ name_to_coord rows) (hB : (B, pb) ∈ name_to_coord rows) :
    ∃ trA trB T, dijkstra (build_graph_from_excel rows flag) pa pb = some trA ∧
      dijkstra (build_graph_from_excel rows flag) pb pa = some trB ∧
      trA.getLast? = some (Entry.hop pb T) ∧
      trB.getLast? = some (Entry.hop pa T) := by
  have hreach : ∃ c : ℝ, CostReach (build_graph_from_excel rows flag) pa pb c := by
    by_cases hAB : A = B
    · rw [hAB] at hA
      rw [name_to_coord_functional hA hB]
      exact ⟨0, CostReach.refl⟩
    · exact ⟨euclidean_distance pa pb / 3,
        CostReach.single (walk_edges_mem flag hA hB hAB).1⟩
  obtain ⟨c, hc⟩ := hreach
  exact dijkstra_symm_total (build_graph_symm rows flag)
    (build_graph_nonneg rows flag) hc

/-- C8 (amended): the reconstruction loop drops nothing.  On every
well-formed (alternating, odd-length) trace — the only shape `dijkstra`
returns — the `range(0, len-2, 2)` iteration produces exactly one segment
per consecutive hop pair, covering the whole trace including its final
segment, and the internal `break` guard never fires. -/
theorem claim_C8 {α : Type} [LinearOrderedCommRing α]
    (tbl : List ((Point × Point) × String)) (tr : List (Entry α))
    (halt : Alt tr) :
    (reconstruct tbl tr).route_steps = segsOf tr ∧
    (segsOf tr).length = tr.length / 2 ∧
    (reconstruct tbl tr).broke = false ∧
    (∀ q T, tr.getLast? = some (Entry.hop q T) → 1 < tr.length →
      ∃ s, ((reconstruct tbl tr).route_steps).getLast? = some s ∧ s.dst = q) := by
  obtain ⟨hrs, -, hbk, -⟩ := reconstruct_alt tbl tr halt
  refine ⟨hrs, segsOf_length tr halt, hbk, ?_⟩
  intro q T hl hlen
  rw [hrs]
  exact segsOf_getLast tr halt q T hl hlen

/-- C9 (amended): every trace `dijkstra` returns is odd-length and
alternating — hops `(point, time)` at even indices, starting with
`(start, 0)`, and `("mode", m)` markers at odd indices; and **whenever the
graph's weights are non-negative** (true of every graph this program
builds) the cumulative hop times are non-decreasing.  (As frozen, with the
non-decreasing part unconditional, the claim is false — see the negative
weight counterexample.) -/
theorem claim_C9 {α : Type} [LinearOrderedAddCommMonoid α] {g : GraphT α}
    {s goal : Point} {tr : List (Entry α)} (htr : dijkstra g s goal = some tr) :
    tr.length % 2 = 1 ∧
    tr.head? = some (Entry.hop s 0) ∧
    (∀ i, i < tr.length → i % 2 = 0 → ∃ p t, tr.get? i = some (Entry.hop p t)) ∧
    (∀ i, i < tr.length → i % 2 = 1 → ∃ m, tr.get? i = some (Entry.mode m)) ∧
    ((∀ e ∈ g, 0 ≤ e.2.2.1) → List.Chain' (· ≤ ·) (timesOf tr)) := by
  obtain ⟨T, halt, hhead, -, -, hchain⟩ := dijkstra_shape_general htr
  exact ⟨halt.length_odd, hhead, halt.get_even, halt.get_odd, hchain⟩

/-- C10: `view_on_map` returns `None` exactly on an empty route-name
collection; on a non-empty one it returns a URL string containing the
comma-joined, percent-encoded route names as a substring. -/
theorem claim_C10 (rail_paths : List String) :
    (rail_paths = [] → view_on_map rail_paths = none) ∧
    (rail_paths ≠ [] → ∃ pre post, view_on_map rail_paths =
      some (pre ++ quoteSafeComma (String.intercalate "," rail_paths) ++ post)) := by
  constructor
  · intro h
    rw [view_on_map, if_pos h]
  · intro h
    exact ⟨mapBaseUrl ++ "Path=", mapUrlSuffix, by rw [view_on_map, if_neg h]⟩

/-- Endpoint-distinctness check for one route grouping (trivially true for
groupings that produce no edge). -/
def routeEndpointsDistinct (nm : String) (rows : List Row) : Bool :=
  match rowsWithPath nm rows with
  | [r1, r2] => decide (r1.coord ≠ r2.coord)
  | _ => true

/-- The number of self-loop edges of a graph. -/
def selfLoopCount (g : GraphT ℝ) : ℕ :=
  (g.filter fun e => decide (e.1 = e.2.1)).length

/-- C6 (amended): provided distinct Locations have distinct coordinates and
each two-member route grouping's endpoints differ, no edge of the built
graph is a self-loop and every edge weight is strictly positive.  (As
frozen — for *every* input dataset — the claim is false: duplicated
coordinates yield weight-0 self-loops, see the counterexample.) -/
theorem claim_C6 {rows : List Row} (flag : Bool)
    (hcoords : (coordsOf rows).Nodup)
    (hroutes : ∀ nm ∈ pathNames rows, routeEndpointsDistinct nm rows = true) :
    ∀ e ∈ build_graph_from_excel rows flag, e.1 ≠ e.2.1 ∧ 0 < e.2.2.1 := by
  intro e he
  rcases mem_build_iff.mp he with hf | ⟨-, hi⟩ | hwk
  · obtain ⟨nm, r1, r2, hnm, heq, hcase⟩ := mem_fixedEdges hf
    have hne : r1.coord ≠ r2.coord := by
      have h := hroutes nm hnm
      unfold routeEndpointsDistinct at h
      rw [heq] at h
      exact of_decide_eq_true h
    have hpos : (0 : ℝ) < ((manhattan_distance r1.coord r2.coord : ℚ) : ℝ) / 8 := by
      apply div_pos _ (by norm_num)
      exact_mod_cast manhattan_distance_pos hne
    rcases hcase with rfl | rfl
    · exact ⟨hne, hpos⟩
    · exact ⟨hne.symm, hpos⟩
  · obtain ⟨p, q, hsub, hcase⟩ := (mem_pairEdges_iff _ _ _ _).mp hi
    have hsubice : (ice_highways rows).Sublist (coordsOf rows) :=
      List.Sublist.map Row.coord (List.filter_sublist _)
    have hnd : (ice_highways rows).Nodup := List.Nodup.sublist hsubice hcoords
    have hpq : p ≠ q := by
      have hnd2 := List.Nodup.sublist hsub hnd
      rw [List.nodup_cons] at hnd2
      intro h
      exact hnd2.1 (h ▸ List.mem_singleton.mpr rfl)
    have hpos : (0 : ℝ) < euclidean_distance p q / 72 :=
      div_pos (euclidean_distance_pos hpq) (by norm_num)
    rcases hcase with rfl | rfl
    · exact ⟨hpq, hpos⟩
    · exact ⟨hpq.symm, hpos⟩
  · obtain ⟨p, q, hsub, hcase⟩ := (mem_pairEdges_iff _ _ _ _).mp hwk
    have hpq : p ≠ q := by
      have hnd2 := List.Nodup.sublist hsub hcoords
      rw [List.nodup_cons] at hnd2
      intro h
      exact hnd2.1 (h ▸ List.mem_singleton.mpr rfl)
    have hpos : (0 : ℝ) < euclidean_distance p q / 3 :=
      div_pos (euclidean_distance_pos hpq) (by norm_num)
    rcases hcase with rfl | rfl
    · exact ⟨hpq, hpos⟩
    · exact ⟨hpq.symm, hpos⟩

/-- Two locations sharing one coordinate pair — nothing in the source (or
its input format) prevents this. -/
def dupRows : List Row :=
  [⟨"A", 0, 0, "", "", none⟩, ⟨"B", 0, 0, "", "", none⟩]

/-- C2 as frozen fails: the two distinct Locations "A" and "B" share the
Point (0,0); the walking edges between the pair have weight 0, which is not
strictly positive. -/
theorem claim_C2_counterexample :
    name_to_coord dupRows = [("A", ((0 : ℚ), (0 : ℚ))), ("B", (0, 0))] ∧
    ("A" : String) ≠ "B" ∧
    walkWeights (build_graph_from_excel dupRows false) (0, 0) (0, 0) = [0, 0] ∧
    ¬ ((0 : ℝ) < 0) := by
  have hW : walkWeights (build_graph_from_excel dupRows false) (0, 0) (0, 0) =
      [euclidean_distance ((0 : ℚ), (0 : ℚ)) (0, 0) / 3,
       euclidean_distance ((0 : ℚ), (0 : ℚ)) (0, 0) / 3] := rfl
  refine ⟨rfl, by decide, ?_, by norm_num⟩
  rw [hW, euclidean_distance_self]
  norm_num

/-- Another coordinate-duplicating table, for the self-loop counterexample. -/
def dupRows6 : List Row :=
  [⟨"P", 5, 5, "", "", none⟩, ⟨"Q", 5, 5, "", "", none⟩]

/-- C6 as frozen fails: with two Locations at the same Point the builder
creates two self-loop edges, of weight 0. -/
theorem claim_C6_counterexample :
    name_to_coord dupRows6 = [("P", ((5 : ℚ), (5 : ℚ))), ("Q", (5, 5))] ∧
    selfLoopCount (build_graph_from_excel dupRows6 false) = 2 ∧
    (build_graph_from_excel dupRows6 false).map (fun e => e.2.2.1) = [0, 0] := by
  have hW : (build_graph_from_excel dupRows6 false).map (fun e => e.2.2.1) =
      [euclidean_distance ((5 : ℚ), (5 : ℚ)) (5, 5) / 3,
       euclidean_distance ((5 : ℚ), (5 : ℚ)) (5, 5) / 3] := rfl
  refine ⟨rfl, rfl, ?_⟩
  rw [hW, euclidean_distance_self]
  norm_num

/-- A two-node graph with one bidirectional walking edge, over `ℚ` so the
search is computable. -/
def exGraph : GraphT ℤ :=
  [((0, 0), (1, 0), 5, Mode.walk), ((1, 0), (0, 0), 5, Mode.walk)]

/-- The trace of the example run. -/
def exTrace : List (Entry ℤ) :=
  [Entry.hop (0, 0) 0, Entry.mode Mode.walk, Entry.hop (1, 0) 5]

theorem dijkstra_run_ex :
    dijkstra exGraph ((0 : ℚ), (0 : ℚ)) (1, 0) = some exTrace := by
  unfold dijkstra
  have h1 : popMin [((0 : ℤ), (((0 : ℚ), (0 : ℚ)) : Point), ([] : List (Entry ℤ)))] =
      some ((0, ((0 : ℚ), (0 : ℚ)), []), []) := rfl
  rw [dijkstraGo_step exGraph (1, 0) h1 (by decide) (by decide)]
  have h2 : popMin ([] ++ pushes exGraph [] 0 ((0 : ℚ), (0 : ℚ))
      ([] ++ [Entry.hop ((0 : ℚ), (0 : ℚ)) 0])) =
      some ((5, ((1 : ℚ), (0 : ℚ)),
        [Entry.hop (0, 0) 0, Entry.mode Mode.walk]), []) := rfl
  rw [dijkstraGo_found exGraph (1, 0) h2 (by decide) rfl]
  decide

/-- A graph with one negative-weight edge. -/
def negGraph : GraphT ℤ := [((0, 0), (1, 0), -1, Mode.walk)]

theorem dijkstra_run_neg :
    dijkstra negGraph ((0 : ℚ), (0 : ℚ)) (1, 0) =
      some [Entry.hop (0, 0) 0, Entry.mode Mode.walk, Entry.hop (1, 0) (-1)] := by
  unfold dijkstra
  have h1 : popMin [((0 : ℤ), (((0 : ℚ), (0 : ℚ)) : Point), ([] : List (Entry ℤ)))] =
      some ((0, ((0 : ℚ), (0 : ℚ)), []), []) := rfl
  rw [dijkstraGo_step negGraph (1, 0) h1 (by decide) (by decide)]
  have h2 : popMin ([] ++ pushes negGraph [] 0 ((0 : ℚ), (0 : ℚ))
      ([] ++ [Entry.hop ((0 : ℚ), (0 : ℚ)) 0])) =
      some ((-1, ((1 : ℚ), (0 : ℚ)),
        [Entry.hop (0, 0) 0, Entry.mode Mode.walk]), []) := rfl
  rw [dijkstraGo_found negGraph (1, 0) h2 (by decide) rfl]
  decide

/-- C9 as frozen fails: on a negative-weight graph `dijkstra` returns a
trace whose cumulative times decrease. -/
theorem claim_C9_counterexample :
    dijkstra negGraph ((0 : ℚ), (0 : ℚ)) (1, 0) =
      some [Entry.hop (0, 0) 0, Entry.mode Mode.walk, Entry.hop (1, 0) (-1)] ∧
    ¬ List.Chain' (· ≤ ·) (timesOf
      [Entry.hop ((0 : ℚ), (0 : ℚ)) (0 : ℤ), Entry.mode Mode.walk,
        Entry.hop (1, 0) (-1)]) := by
  refine ⟨dijkstra_run_neg, ?_⟩
  have h : timesOf [Entry.hop ((0 : ℚ), (0 : ℚ)) (0 : ℤ), Entry.mode Mode.walk,
      Entry.hop (1, 0) (-1)] = [0, -1] := rfl
  rw [h]
  simp

/-- Witness traces for the reconstruction loop, over `ℤ`. -/
def exTrace3 : List (Entry ℤ) :=
  [Entry.hop (0, 0) 0, Entry.mode Mode.walk, Entry.hop (1, 0) 1]

def exTrace5 : List (Entry ℤ) :=
  [Entry.hop (0, 0) 0, Entry.mode Mode.walk, Entry.hop (1, 0) 1,
   Entry.mode Mode.walk, Entry.hop (2, 0) 2]

/-- C8 as frozen fails: on complete traces of both hop-parities (two hops
and three hops — lengths 3 and 5) the loop emits every segment, including
the final one, and the break never fires; nothing is dropped at any
length. -/
theorem claim_C8_counterexample :
    (reconstruct [] exTrace3).route_steps =
      [⟨(0, 0), (1, 0), Mode.walk, 3, 1⟩] ∧
    (reconstruct [] exTrace3).broke = false ∧
    (reconstruct [] exTrace5).route_steps =
      [⟨(0, 0), (1, 0), Mode.walk, 3, 1⟩, ⟨(1, 0), (2, 0), Mode.walk, 3, 1⟩] ∧
    (reconstruct [] exTrace5).broke = false := by
  refine ⟨?_, rfl, ?_, rfl⟩ <;> decide

theorem claim_C8_witness :
    Alt exTrace5 ∧
    (reconstruct [] exTrace5).route_steps = segsOf exTrace5 ∧
    (segsOf exTrace5).length = exTrace5.length / 2 ∧
    (reconstruct [] exTrace5).broke = false ∧
    (∃ s, ((reconstruct [] exTrace5).route_steps).getLast? = some s ∧
      s.dst = (2, 0)) := by
  have halt : Alt exTrace5 :=
    Alt.cons _ _ _ (Alt.cons _ _ _ (Alt.single _ _))
  obtain ⟨h1, h2, h3, h4⟩ := claim_C8 [] exTrace5 halt
  exact ⟨halt, h1, h2, h3, h4 (2, 0) 2 (by decide) (by decide)⟩

theorem claim_C5_witness :
    dijkstra exGraph ((0 : ℚ), (0 : ℚ)) (1, 0) = some exTrace ∧
    sumTimes (reconstruct [] exTrace).route_steps =
      (reconstruct [] exTrace).total_time ∧
    (reconstruct [] exTrace).total_time = 5 ∧
    sumDists (reconstruct [] exTrace).route_steps =
      (reconstruct [] exTrace).total_distance := by
  obtain ⟨h1, h2, h3, -⟩ := claim_C5 [] dijkstra_run_ex
  exact ⟨dijkstra_run_ex, h1, h2 5 (by decide), h3⟩

theorem claim_C9_witness :
    dijkstra exGraph ((0 : ℚ), (0 : ℚ)) (1, 0) = some exTrace ∧
    exTrace.length % 2 = 1 ∧
    exTrace.head? = some (Entry.hop (0, 0) 0) ∧
    (∃ p t, exTrace.get? 2 = some (Entry.hop p t)) ∧
    (∃ m, exTrace.get? 1 = some (Entry.mode m)) ∧
    List.Chain' (· ≤ ·) (timesOf exTrace) := by
  obtain ⟨h1, h2, h3, h4, h5⟩ := claim_C9 dijkstra_run_ex
  exact ⟨dijkstra_run_ex, h1, h2, h3 2 (by decide) (by decide),
    h4 1 (by decide) (by decide), h5 (by decide)⟩

/-- The example graph over the reals for the C1 witness. -/
def exGraphR : GraphT ℝ := [((0, 0), (1, 0), 5, Mode.walk)]

theorem claim_C1_witness :
    (∀ e ∈ exGraphR, 0 ≤ e.2.2.1) ∧
    (∃ c : ℝ, CostReach exGraphR (0, 0) (1, 0) c) ∧
    ∃ tr T, dijkstra exGraphR ((0 : ℚ), (0 : ℚ)) (1, 0) = some tr ∧
      tr.getLast? = some (Entry.hop (1, 0) T) ∧
      CostReach exGraphR (0, 0) (1, 0) T ∧
      (∀ c : ℝ, CostReach exGraphR (0, 0) (1, 0) c → T ≤ c) ∧
      List.count ((1 : ℚ), (0 : ℚ)) (hopsOf tr) = 1 := by
  have hw : ∀ e ∈ exGraphR, 0 ≤ e.2.2.1 := by
    intro e he
    unfold exGraphR at he
    rw [List.mem_singleton] at he
    subst he
    norm_num
  have hr : ∃ c : ℝ, CostReach exGraphR (0, 0) (1, 0) c :=
    ⟨5, CostReach.single (List.mem_singleton.mpr rfl)⟩
  exact ⟨hw, hr, claim_C1 hw hr⟩

/-- Table with two locations at distinct coordinates, used by several
witnesses. -/
def walkRows : List Row :=
  [⟨"A", 0, 0, "", "", none⟩, ⟨"B", 3, 4, "", "", none⟩]

theorem claim_C2_witness :
    ("A", ((0 : ℚ), (0 : ℚ))) ∈ name_to_coord walkRows ∧
    ("B", ((3 : ℚ), (4 : ℚ))) ∈ name_to_coord walkRows ∧
    ("A" : String) ≠ "B" ∧ ((0 : ℚ), (0 : ℚ)) ≠ ((3 : ℚ), (4 : ℚ)) ∧
    ((((0 : ℚ), (0 : ℚ)), ((3 : ℚ), (4 : ℚ)),
        euclidean_distance ((0 : ℚ), (0 : ℚ)) ((3 : ℚ), (4 : ℚ)) / 3,
        Mode.walk) ∈ build_graph_from_excel walkRows false ∧
      (((3 : ℚ), (4 : ℚ)), ((0 : ℚ), (0 : ℚ)),
        euclidean_distance ((0 : ℚ), (0 : ℚ)) ((3 : ℚ), (4 : ℚ)) / 3,
        Mode.walk) ∈ build_graph_from_excel walkRows false ∧
      0 < euclidean_distance ((0 : ℚ), (0 : ℚ)) ((3 : ℚ), (4 : ℚ)) / 3) :=
  ⟨by decide, by decide, by decide, by decide,
    @claim_C2 walkRows "A" "B" ((0 : ℚ), (0 : ℚ)) ((3 : ℚ), (4 : ℚ)) false
      (by decide) (by decide) (by decide) (by decide)⟩

theorem claim_C7_witness :
    ("A", ((0 : ℚ), (0 : ℚ))) ∈ name_to_coord walkRows ∧
    ("B", ((3 : ℚ), (4 : ℚ))) ∈ name_to_coord walkRows ∧
    ∃ trA trB T,
      dijkstra (build_graph_from_excel walkRows false) ((0 : ℚ), (0 : ℚ))
        ((3 : ℚ), (4 : ℚ)) = some trA ∧
      dijkstra (build_graph_from_excel walkRows false) ((3 : ℚ), (4 : ℚ))
        ((0 : ℚ), (0 : ℚ)) = some trB ∧
      trA.getLast? = some (Entry.hop ((3 : ℚ), (4 : ℚ)) T) ∧
      trB.getLast? = some (Entry.hop ((0 : ℚ), (0 : ℚ)) T) :=
  ⟨by decide, by decide,
    @claim_C7 walkRows "A" "B" ((0 : ℚ), (0 : ℚ)) ((3 : ℚ), (4 : ℚ)) false
      (by decide) (by decide)⟩

theorem claim_C10_witness :
    view_on_map [] = none ∧
    ∃ pre post, view_on_map ["Red Line"] =
      some (pre ++ quoteSafeComma (String.intercalate "," ["Red Line"]) ++ post) :=
  ⟨(claim_C10 []).1 rfl, (claim_C10 ["Red Line"]).2 (by decide)⟩

/-- Two ice-highway-tagged locations. -/
def iceRows : List Row :=
  [⟨"A", 0, 0, "", "Ice Highway", none⟩, ⟨"B", 3, 4, "", "Ice Highway", none⟩]

theorem claim_C3_witness :
    modeCount (build_graph_from_excel iceRows true) Mode.ice = 2 ∧
    ((((0 : ℚ), (0 : ℚ)), ((3 : ℚ), (4 : ℚ)),
        euclidean_distance ((0 : ℚ), (0 : ℚ)) ((3 : ℚ), (4 : ℚ)) / 72,
        Mode.ice) ∈ build_graph_from_excel iceRows true) ∧
    (true = true ∧ ((0 : ℚ), (0 : ℚ)) ∈ ice_highways iceRows ∧
      ((3 : ℚ), (4 : ℚ)) ∈ ice_highways iceRows) := by
  have hmem : (((0 : ℚ), (0 : ℚ)), ((3 : ℚ), (4 : ℚ)),
      euclidean_distance ((0 : ℚ), (0 : ℚ)) ((3 : ℚ), (4 : ℚ)) / 72, Mode.ice) ∈
      build_graph_from_excel iceRows true := by
    rw [show build_graph_from_excel iceRows true =
      (((0 : ℚ), (0 : ℚ)), ((3 : ℚ), (4 : ℚ)),
        euclidean_distance ((0 : ℚ), (0 : ℚ)) ((3 : ℚ), (4 : ℚ)) / 72, Mode.ice) ::
        (build_graph_from_excel iceRows true).tail from rfl]
    exact List.mem_cons_self _ _
  refine ⟨?_, hmem, (claim_C3 iceRows true).2 _ hmem rfl⟩
  rw [(claim_C3 iceRows true).1]
  decide

/-- A valid two-member route "S" next to a malformed three-member route
"R". -/
def routeRows : List Row :=
  [⟨"A", 0, 0, "", "", some "R"⟩, ⟨"B", 1, 0, "", "", some "R"⟩,
   ⟨"C", 2, 0, "", "", some "R"⟩, ⟨"D", 0, 1, "", "", some "S"⟩,
   ⟨"E", 1, 1, "", "", some "S"⟩]

/-- A route-less extra row. -/
def extraRow : Row := ⟨"F", 9, 9, "", "", none⟩

/-- The rail edge contributed by route "S". -/
noncomputable def edgeS : EdgeT ℝ :=
  (((0 : ℚ), (1 : ℚ)), ((1 : ℚ), (1 : ℚ)),
    ((manhattan_distance ((0 : ℚ), (1 : ℚ)) ((1 : ℚ), (1 : ℚ)) : ℚ) : ℝ) / 8,
    Mode.normal)

theorem claim_C4_witness :
    (rowsWithPath "R" routeRows).length = 3 ∧
    ((((0 : ℚ), (1 : ℚ)), ((1 : ℚ), (1 : ℚ))), "S") ∈ coord_pair_to_path routeRows ∧
    ("S" : String) ≠ "R" ∧
    (∃ nm' r1 r2, nm' ≠ "R" ∧ rowsWithPath nm' routeRows = [r1, r2] ∧
      (edgeS = (r1.coord, r2.coord,
          ((manhattan_distance r1.coord r2.coord : ℚ) : ℝ) / 8, Mode.normal) ∨
       edgeS = (r2.coord, r1.coord,
          ((manhattan_distance r1.coord r2.coord : ℚ) : ℝ) / 8, Mode.normal))) ∧
    fixedEdges (routeRows ++ [extraRow]) = fixedEdges routeRows ∧
    coord_pair_to_path (routeRows ++ [extraRow]) = coord_pair_to_path routeRows := by
  have hmem : edgeS ∈ build_graph_from_excel routeRows false := by
    rw [show build_graph_from_excel routeRows false =
      edgeS :: (build_graph_from_excel routeRows false).tail from rfl]
    exact List.mem_cons_self _ _
  have hC := claim_C4 routeRows false "R" (by decide)
  refine ⟨by decide, by decide, ?_, ?_, ?_, ?_⟩
  · exact hC.1 ((((0 : ℚ), (1 : ℚ)), ((1 : ℚ), (1 : ℚ))), "S") (by decide)
  · exact hC.2.1 edgeS hmem rfl
  · exact (hC.2.2 extraRow rfl).1
  · exact (hC.2.2 extraRow rfl).2

/-- Two locations joined by a valid route, all coordinates distinct. -/
def fixRows : List Row :=
  [⟨"A", 0, 0, "", "", some "R1"⟩, ⟨"B", 3, 4, "", "", some "R1"⟩]

/-- The rail edge contributed by route "R1". -/
noncomputable def edgeR1 : EdgeT ℝ :=
  (((0 : ℚ), (0 : ℚ)), ((3 : ℚ), (4 : ℚ)),
    ((manhattan_distance ((0 : ℚ), (0 : ℚ)) ((3 : ℚ), (4 : ℚ)) : ℚ) : ℝ) / 8,
    Mode.normal)

theorem claim_C6_witness :
    (coordsOf fixRows).Nodup ∧
    (∀ nm ∈ pathNames fixRows, routeEndpointsDistinct nm fixRows = true) ∧
    edgeR1 ∈ build_graph_from_excel fixRows false ∧
    (edgeR1.1 ≠ edgeR1.2.1 ∧ 0 < edgeR1.2.2.1) := by
  have hmem : edgeR1 ∈ build_graph_from_excel fixRows false := by
    rw [show build_graph_from_excel fixRows false =
      edgeR1 :: (build_graph_from_excel fixRows false).tail from rfl]
    exact List.mem_cons_self _ _
  exact ⟨by decide, by decide, hmem,
    claim_C6 false (by decide) (by decide) edgeR1 hmem⟩
